import Mathlib

/-! Particle background (`js/particles.js`).

A shallow embedding of the particle system of `js/particles.js` and the
properties of it that the specification states.

Conventions of the embedding.

* JavaScript numbers are modelled as exact rationals (`ℚ`): every comparison
  and every arithmetic expression of the source is kept, rounding is not
  modelled. The arithmetic of `drawConnections` is modelled a second time in
  binary64, with the rounding of every operation (`connection64`), for the
  properties of the opacity that depend on it.
* `Math.random()` is an injected stream `rand : Nat → ℚ` together with the
  index of the next draw.
* The 2D context is a log: every frame (`animate`) appends the list of the
  drawing operations it issued.
* The host (browser) side of `requestAnimationFrame` / `cancelAnimationFrame`
  is the list `pending` of outstanding frame requests and the counter
  `lastHandle` of the last handle given out (handles are positive integers).
-/

namespace Particles

/-! ## Data model -/

/-- The object `config` of the source (lines 13-20). -/
structure Config where
  particleCount : Nat
  particleSize : ℚ
  particleSpeed : ℚ
  connectionDistance : ℚ
  particleColor : String
  lineColor : String
  deriving DecidableEq

/-- The fields a `Particle` instance carries (set by `reset`). -/
structure Particle where
  x : ℚ
  y : ℚ
  vx : ℚ
  vy : ℚ
  radius : ℚ
  deriving DecidableEq

/-- The drawing surface: the attributes `canvas.width` and `canvas.height`. -/
structure Canvas where
  width : ℚ
  height : ℚ
  deriving DecidableEq

/-- One drawing operation issued on the 2D context.
* `clearRect x y w h` is `ctx.clearRect(x, y, w, h)`;
* `fillCircle x y r style` is the body of `Particle.draw`: a full-circle
  `arc` at `(x, y)` of radius `r`, filled with `fillStyle = style`;
* `line x1 y1 x2 y2 alpha` is the stroke of `drawConnections`: `moveTo(x1, y1)`,
  `lineTo(x2, y2)`, `strokeStyle = rgba(0, 255, 157, alpha)`, `lineWidth = 1`. -/
inductive DrawOp where
  | clearRect (x y w h : ℚ)
  | fillCircle (x y r : ℚ) (style : String)
  | line (x1 y1 x2 y2 alpha : ℚ)
  deriving DecidableEq

/-! ## Configuration (lines 10-20) -/

/-- Source: `const isMobile = window.innerWidth < 768`. -/
def isMobile (innerWidth : ℚ) : Bool :=
  decide (innerWidth < 768)

/-- Source: `const isTablet = window.innerWidth >= 768 && window.innerWidth < 1024`. -/
def isTablet (innerWidth : ℚ) : Bool :=
  decide (innerWidth ≥ 768) && decide (innerWidth < 1024)

/-- The object `config`, as a function of `window.innerWidth` at load time. -/
def config (innerWidth : ℚ) : Config where
  particleCount := if isMobile innerWidth then 30 else (if isTablet innerWidth then 50 else 80)
  particleSize := if isMobile innerWidth then 2 else 2.5
  particleSpeed := 0.4
  connectionDistance := if isMobile innerWidth then 100 else 150
  particleColor := "rgba(0, 212, 255, 0.7)"
  lineColor := "rgba(0, 255, 157, 0.15)"

/-! ## Particle (lines 60-90) -/

/-- The method `Particle.reset` (called by the constructor): four draws of `Math.random()`,
in source order, starting at index `k` of the stream. -/
def Particle.reset (rand : Nat → ℚ) (k : Nat) (canvas : Canvas) (cfg : Config) : Particle where
  x := rand k * canvas.width
  y := rand (k + 1) * canvas.height
  vx := (rand (k + 2) - 0.5) * cfg.particleSpeed
  vy := (rand (k + 3) - 0.5) * cfg.particleSpeed
  radius := cfg.particleSize

/-- The method `Particle.update` (lines 73-82): move, then the four wrap tests in source
order (each test reads the coordinate the previous one may have written). -/
def Particle.update (canvas : Canvas) (p : Particle) : Particle :=
  let x1 := p.x + p.vx
  let y1 := p.y + p.vy
  let x2 := if x1 < 0 then canvas.width else x1
  let x3 := if x2 > canvas.width then 0 else x2
  let y2 := if y1 < 0 then canvas.height else y1
  let y3 := if y2 > canvas.height then 0 else y2
  { p with x := x3, y := y3 }

/-- The method `Particle.draw` (lines 84-89). -/
def Particle.draw (cfg : Config) (p : Particle) : DrawOp :=
  DrawOp.fillCircle p.x p.y p.radius cfg.particleColor

/-- The particle after `n` calls of `update`. -/
def Particle.updateN (canvas : Canvas) : Nat → Particle → Particle
  | 0, p => p
  | n + 1, p => Particle.updateN canvas n (Particle.update canvas p)

/-! ## Loops -/

/-- The loop `for (let i = start; i < start + count; i++) body(i)`, collecting
what each iteration emits. -/
def forRange {α : Type} (body : Nat → List α) : Nat → Nat → List α
  | _, 0 => []
  | i, k + 1 => body i ++ forRange body (i + 1) k

/-- The nested loops of `drawConnections` (lines 105-106):
`for (i = 0; i < n; i++) for (j = i + 1; j < n; j++) body(i, j)`. -/
def forPairs {α : Type} (n : Nat) (body : Nat → Nat → List α) : List α :=
  forRange (fun i => forRange (fun j => body i j) (i + 1) (n - (i + 1))) 0 (n - 0)

/-- The index pairs the nested loops of `drawConnections` visit over a
collection of `n` particles, in visiting order. -/
def examinedPairs (n : Nat) : List (Nat × Nat) :=
  forPairs n (fun i j => [(i, j)])

/-! ## Connections (lines 101-122) -/

/-- Source: `dx * dx + dy * dy` with `dx`, `dy` the coordinate differences. -/
def distanceSq (a b : Particle) : ℚ :=
  let dx := a.x - b.x
  let dy := a.y - b.y
  dx * dx + dy * dy

/-- The body of the inner loop of `drawConnections` for the particles
`a = particles[i]` and `b = particles[j]`: the stroke it issues, if any, in exact
arithmetic (`connection64` is the same body with binary64 rounding). -/
def connection (cfg : Config) (a b : Particle) : Option DrawOp :=
  let maxDistance := cfg.connectionDistance
  let maxDistanceSq := maxDistance * maxDistance
  let distSq := distanceSq a b
  if distSq < maxDistanceSq then
    let opacity := 1 - (distSq / maxDistanceSq)
    some (DrawOp.line a.x a.y b.x b.y (opacity * 0.2))
  else
    none

/-- The body of the inner loop at indices `i`, `j` of the collection. -/
def connectionAt (cfg : Config) (particles : List Particle) (i j : Nat) : List DrawOp :=
  match particles[i]?, particles[j]? with
  | some a, some b => (connection cfg a b).toList
  | _, _ => []

/-- The function `drawConnections` (lines 101-122): the strokes issued, in order. -/
def drawConnections (cfg : Config) (particles : List Particle) : List DrawOp :=
  forPairs particles.length (connectionAt cfg particles)

/-! ## Program state and host events -/

/-- The variables of the script together with the part of the host it talks to. -/
structure State where
  /-- The value of `window.innerWidth`. -/
  innerWidth : ℚ
  /-- The value of `window.innerHeight`. -/
  innerHeight : ℚ
  /-- Whether `document.getElementById` finds the element `particles`. -/
  containerPresent : Bool
  /-- The constant `config`. -/
  cfg : Config
  /-- The attributes of `canvas`. -/
  canvas : Canvas
  /-- Whether `container.appendChild(canvas)` has run. -/
  attached : Bool
  /-- The array `particles`. -/
  particles : List Particle
  /-- The variable `animationId` (`none` is `undefined`). -/
  animationId : Option Nat
  /-- Host: handles of the frame requests that are outstanding. -/
  pending : List Nat
  /-- Host: the last handle `requestAnimationFrame` returned. -/
  lastHandle : Nat
  /-- Whether the `resize` listener of `init` is registered. -/
  resizeListener : Bool
  /-- Whether the debounce timer `resizeTimeout` is armed. -/
  resizeTimeout : Bool
  /-- The stream behind `Math.random()`. -/
  rand : Nat → ℚ
  /-- Index of the next draw of `rand`. -/
  randIdx : Nat
  /-- The drawing operations of every frame run so far, oldest first. -/
  frames : List (List DrawOp)

/-- What the host can deliver to the script. -/
inductive Event where
  /-- The function `init` is called (directly, or by `DOMContentLoaded`). -/
  | init
  /-- A display refresh: the host runs the outstanding frame callbacks. -/
  | refresh
  /-- The event `visibilitychange`, with the value of `document.hidden`. -/
  | visibilityChange (hidden : Bool)
  /-- The window is resized to the given inner size. -/
  | windowResize (w h : ℚ)
  /-- The debounce timer of the resize listener fires. -/
  | resizeTimer

/-- The state right after the script body has run, before `init`: `config` is
computed from the window width, the canvas element is created detached (with the
default size of a canvas element, 300 by 150), `particles` is empty and
`animationId` is undefined. -/
def load (innerWidth innerHeight : ℚ) (containerPresent : Bool) (rand : Nat → ℚ) : State where
  innerWidth := innerWidth
  innerHeight := innerHeight
  containerPresent := containerPresent
  cfg := config innerWidth
  canvas := ⟨300, 150⟩
  attached := false
  particles := []
  animationId := none
  pending := []
  lastHandle := 0
  resizeListener := false
  resizeTimeout := false
  rand := rand
  randIdx := 0
  frames := []

/-- The function `resize` (lines 54-57). -/
def resize (s : State) : State :=
  { s with canvas := ⟨s.innerWidth, s.innerHeight⟩ }

/-- The loop of `createParticles`: `count` times `particles.push(new Particle())`,
the draws starting at index `k`. -/
def spawn (rand : Nat → ℚ) (canvas : Canvas) (cfg : Config) : Nat → Nat → List Particle
  | _, 0 => []
  | k, count + 1 => Particle.reset rand k canvas cfg :: spawn rand canvas cfg (k + 4) count

/-- The function `createParticles` (lines 93-98): `particles.length = 0`, then the loop
`for (i = 0; i < config.particleCount; i++)` pushing onto the emptied array. -/
def createParticles (s : State) : State :=
  let emptied : List Particle := s.particles.take 0
  { s with
    particles := emptied ++ spawn s.rand s.canvas s.cfg s.randIdx (s.cfg.particleCount - 0)
    randIdx := s.randIdx + 4 * (s.cfg.particleCount - 0) }

/-- The first loop of `animate` (lines 129-132): each particle is updated and then
drawn, in array order. Returns the updated array and the operations issued. -/
def stepParticles (canvas : Canvas) (cfg : Config) : List Particle → List Particle × List DrawOp
  | [] => ([], [])
  | p :: rest =>
    let p1 := Particle.update canvas p
    let r := stepParticles canvas cfg rest
    (p1 :: r.1, Particle.draw cfg p1 :: r.2)

/-- The drawing operations of one call of `animate` in state `s`. -/
def frameOps (s : State) : List DrawOp :=
  let stepped := stepParticles s.canvas s.cfg s.particles
  [DrawOp.clearRect 0 0 s.canvas.width s.canvas.height] ++ stepped.2
    ++ drawConnections s.cfg stepped.1

/-- The function `animate` (lines 125-138): clear, update and draw every particle, draw the
connections, then `animationId = requestAnimationFrame(animate)`. -/
def animate (s : State) : State :=
  let handle := s.lastHandle + 1
  { s with
    particles := (stepParticles s.canvas s.cfg s.particles).1
    frames := s.frames ++ [frameOps s]
    pending := s.pending ++ [handle]
    lastHandle := handle
    animationId := some handle }

/-- The function `init` (lines 28-51). -/
def init (s : State) : State :=
  if !s.containerPresent then s
  else
    let s1 := { s with attached := true }
    let s2 := resize s1
    let s3 := createParticles s2
    let s4 := animate s3
    { s4 with resizeListener := true }

/-- Truthiness of `animationId` in `if (animationId)`. -/
def truthy : Option Nat → Bool
  | none => false
  | some k => k != 0

/-- Host: `cancelAnimationFrame(handle)`. -/
def cancelAnimationFrame (handle : Option Nat) (s : State) : State :=
  match handle with
  | none => s
  | some k => { s with pending := s.pending.filter (fun h => h != k) }

/-- The `visibilitychange` listener (lines 141-149). -/
def onVisibilityChange (hidden : Bool) (s : State) : State :=
  if hidden then
    if truthy s.animationId then cancelAnimationFrame s.animationId s else s
  else
    animate s

/-- Host: a display refresh runs every callback that was outstanding when the
refresh began, each exactly once; requests made meanwhile wait for the next one.
Every callback registered by this script is `animate`. -/
def runFrameCallbacks (s : State) : State :=
  s.pending.foldl (fun st _ => animate st) { s with pending := [] }

/-- The reaction of the script to one host event. -/
def handle (s : State) : Event → State
  | Event.init => init s
  | Event.refresh => runFrameCallbacks s
  | Event.visibilityChange hidden => onVisibilityChange hidden s
  | Event.windowResize w h =>
    let s1 := { s with innerWidth := w, innerHeight := h }
    if s1.resizeListener then { s1 with resizeTimeout := true } else s1
  | Event.resizeTimer =>
    if s.resizeTimeout then resize { s with resizeTimeout := false } else s

/-- The state after a sequence of host events, delivered in order. -/
def run (s : State) (events : List Event) : State :=
  events.foldl handle s

/-- The number of frames (calls of `animate`) run so far. -/
def framesRun (s : State) : Nat :=
  s.frames.length

/-- The tier table of the specification (section 4.1), following its words:
particle count, particle size, connection distance and particle speed for a
viewport of width `w`. -/
def tierTable (w : ℚ) : Nat × ℚ × ℚ × ℚ :=
  if w < 768 then (30, 2, 100, 4 / 10)
  else if w < 1024 then (50, 25 / 10, 150, 4 / 10)
  else (80, 25 / 10, 150, 4 / 10)

/-- Whether a particle lies on the surface, edges included. -/
def Particle.inBounds (canvas : Canvas) (p : Particle) : Prop :=
  0 ≤ p.x ∧ p.x ≤ canvas.width ∧ 0 ≤ p.y ∧ p.y ≤ canvas.height

/-- The opacity formula of the specification (section 4.3) for a pair at squared
distance `d2` under connection distance `D`: `(1 - d²/D²) * 0.2`. -/
def specOpacity (D d2 : ℚ) : ℚ :=
  (1 - d2 / (D * D)) * 0.2

/-- The opacity a drawing operation strokes with, when it is a connection line. -/
def DrawOp.lineAlpha : DrawOp → Option ℚ
  | DrawOp.line _ _ _ _ alpha => some alpha
  | _ => none

/-- The state after `n` further calls of `animate` (`n` frames). -/
def animateN : Nat → State → State
  | 0, s => s
  | n + 1, s => animateN n (animate s)

/-- A particle that does not move: both velocity components are zero. -/
def Particle.stationary (p : Particle) : Prop :=
  p.vx = 0 ∧ p.vy = 0

/-- The random stream of the scenario of the specification (section 8): the
draws that seed the positions `(0, 0)` and `(3, 4)` on a 400 by 400 surface. -/
def scenarioRand (k : Nat) : ℚ :=
  if k = 4 then 3 / 400 else if k = 5 then 4 / 400 else 0

/-- The scenario of the specification (section 8): surface 400 by 400,
configuration `particleCount = 2`, `particleSpeed = 0`, `particleSize = 3`,
`connectionDistance = 1000` (colours as in the source), particles created by
`createParticles` from the seeded stream. -/
def scenario : State :=
  createParticles
    { load 400 400 true scenarioRand with
      cfg := ⟨2, 3, 0, 1000, "rgba(0, 212, 255, 0.7)", "rgba(0, 255, 157, 0.15)"⟩
      canvas := ⟨400, 400⟩ }

/-- A stream of draws used to run the script on concrete inputs. -/
def sampleRand (k : Nat) : ℚ :=
  ((k % 7 : Nat) : ℚ) / 7

/-! ## Binary64 arithmetic

The arithmetic of `drawConnections` as the source runs it: JavaScript numbers are
binary64 values and every operation rounds its exact result to the nearest
binary64 value, ties to even. Finite values are carried by their exact rational
value; the sign of zero is not tracked (the only divisor of the source is a
rounded square, whose zero is positive). -/

/-- Round to the nearest integer, ties to the even one. -/
def roundHalfEven (m : ℚ) : ℤ :=
  let f := ⌊m⌋
  if m - f < 1 / 2 then f
  else if 1 / 2 < m - f then f + 1
  else if f % 2 = 0 then f else f + 1

/-- The exponent of the unit in the last place of binary64 at `x`: 52 below the
binary exponent of `x` (53 significant bits), and `-1074` throughout the
subnormal range. -/
def quantum (x : ℚ) : ℤ :=
  max (Int.log 2 |x| - 52) (-1074)

/-- Round `x` to the nearest multiple of `2 ^ q`, ties to even. -/
def roundAt (q : ℤ) (x : ℚ) : ℚ :=
  (roundHalfEven (x / (2 : ℚ) ^ q) : ℚ) * (2 : ℚ) ^ q

/-- Round to nearest, ties to even, with 53 significant bits and gradual
underflow, the exponent unbounded above (overflow is decided by `F64.ofRat`). -/
def round64 (x : ℚ) : ℚ :=
  if 0 ≤ x then roundAt (quantum x) x else -roundAt (quantum x) (-x)

/-- A binary64 value: finite (by its exact value), an infinity, or NaN. -/
inductive F64 where
  | fin (v : ℚ)
  | inf (negative : Bool)
  | nan
  deriving DecidableEq

/-- The binary64 value an exact result rounds to: the rounded value, or an
infinity when the rounded magnitude reaches `2 ^ 1024`. -/
def F64.ofRat (x : ℚ) : F64 :=
  if (2 : ℚ) ^ 1024 ≤ |round64 x| then F64.inf (decide (x < 0)) else F64.fin (round64 x)

/-- Binary64 negation. -/
def F64.neg : F64 → F64
  | F64.fin v => F64.fin (-v)
  | F64.inf s => F64.inf (!s)
  | F64.nan => F64.nan

/-- Binary64 addition (the operator `+`). -/
def F64.add : F64 → F64 → F64
  | F64.fin a, F64.fin b => F64.ofRat (a + b)
  | F64.fin _, F64.inf s => F64.inf s
  | F64.inf s, F64.fin _ => F64.inf s
  | F64.inf s, F64.inf t => if s = t then F64.inf s else F64.nan
  | _, _ => F64.nan

/-- Binary64 subtraction (the operator `-`). -/
def F64.sub (a b : F64) : F64 :=
  F64.add a (F64.neg b)

/-- Binary64 multiplication (the operator `*`). -/
def F64.mul : F64 → F64 → F64
  | F64.fin a, F64.fin b => F64.ofRat (a * b)
  | F64.fin a, F64.inf s => if a = 0 then F64.nan else F64.inf (xor s (decide (a < 0)))
  | F64.inf s, F64.fin b => if b = 0 then F64.nan else F64.inf (xor s (decide (b < 0)))
  | F64.inf s, F64.inf t => F64.inf (xor s t)
  | _, _ => F64.nan

/-- Binary64 division (the operator `/`). -/
def F64.div : F64 → F64 → F64
  | F64.fin a, F64.fin b =>
    if b = 0 then (if a = 0 then F64.nan else F64.inf (decide (a < 0)))
    else F64.ofRat (a / b)
  | F64.fin _, F64.inf _ => F64.fin 0
  | F64.inf s, F64.fin b => F64.inf (xor s (decide (b < 0)))
  | _, _ => F64.nan

/-- Binary64 comparison (the operator `<`): false as soon as a side is NaN. -/
def F64.lt : F64 → F64 → Bool
  | F64.fin a, F64.fin b => decide (a < b)
  | F64.fin _, F64.inf s => !s
  | F64.inf s, F64.fin _ => s
  | F64.inf s, F64.inf t => s && !t
  | _, _ => false

/-- Binary64 comparison `<=`: false as soon as a side is NaN. -/
def F64.le : F64 → F64 → Bool
  | F64.fin a, F64.fin b => decide (a ≤ b)
  | F64.fin _, F64.inf s => !s
  | F64.inf s, F64.fin _ => s
  | F64.inf s, F64.inf t => s || !t
  | _, _ => false

/-- A stroke of `drawConnections` in binary64: the end points (finite values) and
the opacity written into `strokeStyle`. -/
structure Stroke64 where
  x1 : ℚ
  y1 : ℚ
  x2 : ℚ
  y2 : ℚ
  alpha : F64
  deriving DecidableEq

/-- Source, in binary64: `dx * dx + dy * dy` with `dx = particles[i].x - particles[j].x`
and `dy` likewise (lines 107-109). The coordinates are finite binary64 values. -/
def distanceSq64 (a b : Particle) : F64 :=
  let dx := F64.sub (F64.fin a.x) (F64.fin b.x)
  let dy := F64.sub (F64.fin a.y) (F64.fin b.y)
  F64.add (F64.mul dx dx) (F64.mul dy dy)

/-- Source, in binary64: `maxDistance * maxDistance` (line 103). -/
def maxDistanceSq64 (cfg : Config) : F64 :=
  let maxDistance := F64.fin cfg.connectionDistance
  F64.mul maxDistance maxDistance

/-- Source, in binary64: `(1 - (distanceSq / maxDistanceSq)) * 0.2` (lines 112, 116). -/
def opacity64 (distSq maxDistanceSq : F64) : F64 :=
  let opacity := F64.sub (F64.fin 1) (F64.div distSq maxDistanceSq)
  F64.mul opacity (F64.ofRat 0.2)

/-- The body of the inner loop of `drawConnections` (lines 107-119) in binary64. -/
def connection64 (cfg : Config) (a b : Particle) : Option Stroke64 :=
  let maxDistanceSq := maxDistanceSq64 cfg
  let distSq := distanceSq64 a b
  if F64.lt distSq maxDistanceSq then
    some ⟨a.x, a.y, b.x, b.y, opacity64 distSq maxDistanceSq⟩
  else
    none

/-- The body of the inner loop at indices `i`, `j` of the collection, in binary64. -/
def connectionAt64 (cfg : Config) (particles : List Particle) (i j : Nat) : List Stroke64 :=
  match particles[i]?, particles[j]? with
  | some a, some b => (connection64 cfg a b).toList
  | _, _ => []

/-- The function `drawConnections` (lines 101-122) in binary64: the strokes
issued, in order. -/
def drawConnections64 (cfg : Config) (particles : List Particle) : List Stroke64 :=
  forPairs particles.length (connectionAt64 cfg particles)

/-- Values of the form `m * 2 ^ q` with an integer `m` of at most 53 bits and an
integer `q`: every value `round64` returns is of this form. -/
def InG (x : ℚ) : Prop :=
  ∃ m q : ℤ, |m| ≤ 2 ^ 53 ∧ x = (m : ℚ) * (2 : ℚ) ^ q

/-- What a rounded sum of squares can be: a finite non-negative rounded value, or
positive infinity. -/
def F64.NonnegRounded (f : F64) : Prop :=
  (∃ u : ℚ, f = F64.fin u ∧ 0 ≤ u ∧ InG u) ∨ f = F64.inf false

/-- The binary64 value of the literal `0.2`. -/
def c02 : ℚ := 7205759403792794 / 2 ^ 55

/-! ## Configuration tiers -/

/-- C2. For every viewport width the configuration equals the tier table of the
specification (count, size, connection distance, speed); the particle count is
one of 30, 50, 80; and the boundaries fall at 767 -> 30, 768 -> 50, 1023 -> 50,
1024 -> 80. -/
theorem config_eq_tierTable (w : ℚ) :
    ((config w).particleCount, (config w).particleSize, (config w).connectionDistance,
        (config w).particleSpeed) = tierTable w
      ∧ ((config w).particleCount = 30 ∨ (config w).particleCount = 50
          ∨ (config w).particleCount = 80)
      ∧ (config 767).particleCount = 30 ∧ (config 768).particleCount = 50
      ∧ (config 1023).particleCount = 50 ∧ (config 1024).particleCount = 80 := by
  refine ⟨?_, ?_, ?_, ?_, ?_, ?_⟩
  · by_cases h1 : w < 768
    · simp [config, tierTable, isMobile, h1]; norm_num
    · have h1' : (768 : ℚ) ≤ w := not_lt.mp h1
      by_cases h2 : w < 1024
      · simp [config, tierTable, isMobile, isTablet, h1, h1', h2]; norm_num
      · simp [config, tierTable, isMobile, isTablet, h1, h1', h2]; norm_num
  · by_cases h1 : w < 768
    · simp [config, isMobile, h1]
    · by_cases h2 : w < 1024 <;> simp [config, isMobile, isTablet, h1, h2]
  · simp [config, isMobile]; norm_num
  · simp [config, isMobile, isTablet]; norm_num
  · simp [config, isMobile, isTablet]; norm_num
  · simp [config, isMobile, isTablet]; norm_num

/-! ## Wrap -/

theorem Particle.update_x (canvas : Canvas) (p : Particle) :
    (Particle.update canvas p).x =
      if p.x + p.vx < 0 then canvas.width
      else if p.x + p.vx > canvas.width then 0 else p.x + p.vx := by
  simp only [Particle.update]
  by_cases h1 : p.x + p.vx < 0
  · simp [h1]
  · simp [h1]

theorem Particle.update_y (canvas : Canvas) (p : Particle) :
    (Particle.update canvas p).y =
      if p.y + p.vy < 0 then canvas.height
      else if p.y + p.vy > canvas.height then 0 else p.y + p.vy := by
  simp only [Particle.update]
  by_cases h1 : p.y + p.vy < 0
  · simp [h1]
  · simp [h1]

theorem Particle.update_inBounds (canvas : Canvas) (p : Particle)
    (hw : 0 ≤ canvas.width) (hh : 0 ≤ canvas.height) :
    Particle.inBounds canvas (Particle.update canvas p) := by
  unfold Particle.inBounds
  rw [Particle.update_x canvas p, Particle.update_y canvas p]
  refine ⟨?_, ?_, ?_, ?_⟩ <;> split_ifs <;> linarith

/-- C4. Wrap exactness: on a surface of non-negative size `update` sets `x` to the
width when the moved coordinate `x + vx` is negative, to 0 when it exceeds the
width, and to `x + vx` otherwise, and likewise `y` against the height; velocity
and radius are left alone. So a moved coordinate of `width + 5` becomes 0 and a
moved coordinate of `-3` becomes the width. -/
theorem update_wrap_exact (canvas : Canvas) (p : Particle)
    (hw : 0 ≤ canvas.width) (hh : 0 ≤ canvas.height) :
    (p.x + p.vx < 0 → (Particle.update canvas p).x = canvas.width)
      ∧ (p.x + p.vx > canvas.width → (Particle.update canvas p).x = 0)
      ∧ (0 ≤ p.x + p.vx → p.x + p.vx ≤ canvas.width →
          (Particle.update canvas p).x = p.x + p.vx)
      ∧ (p.y + p.vy < 0 → (Particle.update canvas p).y = canvas.height)
      ∧ (p.y + p.vy > canvas.height → (Particle.update canvas p).y = 0)
      ∧ (0 ≤ p.y + p.vy → p.y + p.vy ≤ canvas.height →
          (Particle.update canvas p).y = p.y + p.vy)
      ∧ (p.x + p.vx = canvas.width + 5 → (Particle.update canvas p).x = 0)
      ∧ (p.x + p.vx = -3 → (Particle.update canvas p).x = canvas.width)
      ∧ (Particle.update canvas p).vx = p.vx ∧ (Particle.update canvas p).vy = p.vy
      ∧ (Particle.update canvas p).radius = p.radius := by
  rw [Particle.update_x canvas p, Particle.update_y canvas p]
  refine ⟨?_, ?_, ?_, ?_, ?_, ?_, ?_, ?_, rfl, rfl, rfl⟩
  · intro h; simp [h]
  · intro h
    have h1 : ¬ p.x + p.vx < 0 := by linarith
    simp [h1, h]
  · intro h1 h2
    have h3 : ¬ p.x + p.vx < 0 := by linarith
    have h4 : ¬ p.x + p.vx > canvas.width := by linarith
    simp [h3, h4]
  · intro h; simp [h]
  · intro h
    have h1 : ¬ p.y + p.vy < 0 := by linarith
    simp [h1, h]
  · intro h1 h2
    have h3 : ¬ p.y + p.vy < 0 := by linarith
    have h4 : ¬ p.y + p.vy > canvas.height := by linarith
    simp [h3, h4]
  · intro h
    have h1 : ¬ canvas.width + 5 < 0 := by linarith
    rw [h]; simp [h1]
  · intro h
    rw [h]; norm_num

/-- The wrap rule at a surface of 400 by 300: a particle at `x = 405`, `y = -3`
with zero velocity is sent to `x = 0`, `y = 300`. -/
theorem update_wrap_exact_witness :
    (0 : ℚ) ≤ (Canvas.mk 400 300).width ∧ (0 : ℚ) ≤ (Canvas.mk 400 300).height
      ∧ (Particle.update ⟨400, 300⟩ ⟨405, -3, 0, 0, 2⟩).x = 0
      ∧ (Particle.update ⟨400, 300⟩ ⟨405, -3, 0, 0, 2⟩).y = 300 := by
  have h := update_wrap_exact ⟨400, 300⟩ ⟨405, -3, 0, 0, 2⟩ (by norm_num) (by norm_num)
  refine ⟨by norm_num, by norm_num, ?_, ?_⟩
  · exact h.2.2.2.2.2.2.1 (by norm_num)
  · exact h.2.2.2.1 (by norm_num)

/-- C1. Wrap invariant: on a surface of non-negative width and height, whatever
the starting position and the velocity of a particle, after `n ≥ 1` calls of
`update` it lies within `0 ≤ x ≤ width` and `0 ≤ y ≤ height`. -/
theorem wrap_invariant (canvas : Canvas) (p : Particle) (n : Nat)
    (hw : 0 ≤ canvas.width) (hh : 0 ≤ canvas.height) (hn : 1 ≤ n) :
    0 ≤ (Particle.updateN canvas n p).x ∧ (Particle.updateN canvas n p).x ≤ canvas.width
      ∧ 0 ≤ (Particle.updateN canvas n p).y
      ∧ (Particle.updateN canvas n p).y ≤ canvas.height := by
  induction n generalizing p with
  | zero => omega
  | succ m ih =>
    cases m with
    | zero => exact Particle.update_inBounds canvas p hw hh
    | succ k => exact ih (Particle.update canvas p) (by omega)

/-- The wrap invariant at a particle that starts far outside a 400 by 300 surface
(as a resize can leave it) and moves away from it: three updates later it is on
the surface. -/
theorem wrap_invariant_witness :
    (0 : ℚ) ≤ (Canvas.mk 400 300).width ∧ (0 : ℚ) ≤ (Canvas.mk 400 300).height ∧ 1 ≤ 3
      ∧ 0 ≤ (Particle.updateN ⟨400, 300⟩ 3 ⟨900, -50, 7, -2, 2⟩).x
      ∧ (Particle.updateN ⟨400, 300⟩ 3 ⟨900, -50, 7, -2, 2⟩).x ≤ 400
      ∧ 0 ≤ (Particle.updateN ⟨400, 300⟩ 3 ⟨900, -50, 7, -2, 2⟩).y
      ∧ (Particle.updateN ⟨400, 300⟩ 3 ⟨900, -50, 7, -2, 2⟩).y ≤ 300 :=
  ⟨by norm_num, by norm_num, by norm_num,
    wrap_invariant ⟨400, 300⟩ ⟨900, -50, 7, -2, 2⟩ 3 (by norm_num) (by norm_num) (by norm_num)⟩

/-! ## Loops, as enumerations -/

theorem mem_forRange {α : Type} (body : Nat → List α) (x : α) (k a : Nat) :
    x ∈ forRange body a k ↔ ∃ i, a ≤ i ∧ i < a + k ∧ x ∈ body i := by
  induction k generalizing a with
  | zero =>
    simp only [forRange, List.not_mem_nil, false_iff]
    rintro ⟨i, h1, h2, _⟩
    omega
  | succ k ih =>
    simp only [forRange, List.mem_append, ih]
    constructor
    · rintro (h | ⟨i, h1, h2, h3⟩)
      · exact ⟨a, le_refl a, by omega, h⟩
      · exact ⟨i, by omega, by omega, h3⟩
    · rintro ⟨i, h1, h2, h3⟩
      by_cases hia : i = a
      · left; rw [← hia]; exact h3
      · right; exact ⟨i, by omega, by omega, h3⟩

theorem nodup_forRange {α : Type} (body : Nat → List α)
    (hbody : ∀ i, (body i).Nodup)
    (hdisj : ∀ i j x, i ≠ j → x ∈ body i → x ∉ body j) (k a : Nat) :
    (forRange body a k).Nodup := by
  induction k generalizing a with
  | zero => simp [forRange]
  | succ k ih =>
    simp only [forRange]
    rw [List.nodup_append]
    refine ⟨hbody a, ih (a + 1), ?_⟩
    intro x hx hx2
    rw [mem_forRange] at hx2
    obtain ⟨i, h1, _, h3⟩ := hx2
    exact hdisj a i x (by omega) hx h3

theorem forRange_flatMap {α β : Type} (g : Nat → List α) (f : α → List β) (k a : Nat) :
    forRange (fun i => (g i).flatMap f) a k = (forRange g a k).flatMap f := by
  induction k generalizing a with
  | zero => simp [forRange]
  | succ k ih => simp [forRange, ih, List.flatMap_append]

theorem length_forRange_singleton {α : Type} (f : Nat → α) (k a : Nat) :
    (forRange (fun j => [f j]) a k).length = k := by
  induction k generalizing a with
  | zero => simp [forRange]
  | succ k ih => simp [forRange, ih]

theorem forPairs_eq_flatMap {α : Type} (n : Nat) (body : Nat → Nat → List α) :
    forPairs n body = (examinedPairs n).flatMap (fun ij => body ij.1 ij.2) := by
  unfold examinedPairs forPairs
  rw [← forRange_flatMap]
  congr 1
  funext i
  rw [← forRange_flatMap]
  congr 1
  funext j
  simp

theorem count_eq_one_of_nodup {α : Type} [BEq α] [LawfulBEq α] {a : α} {l : List α}
    (hnd : l.Nodup) (hmem : a ∈ l) : l.count a = 1 := by
  induction l with
  | nil => cases hmem
  | cons x xs ih =>
    rw [List.nodup_cons] at hnd
    rw [List.count_cons]
    by_cases h : x = a
    · subst h
      simp [List.count_eq_zero_of_not_mem hnd.1]
    · have hxs : a ∈ xs := by
        rcases List.mem_cons.mp hmem with e | e
        · exact absurd e.symm h
        · exact e
      have hb : (x == a) = false := by simpa using h
      simp [hb, ih hnd.2 hxs]

theorem mem_examinedPairs (n i j : Nat) :
    (i, j) ∈ examinedPairs n ↔ i < j ∧ j < n := by
  unfold examinedPairs forPairs
  rw [mem_forRange]
  constructor
  · rintro ⟨a, _, h2, h3⟩
    rw [mem_forRange] at h3
    obtain ⟨b, h4, h5, h6⟩ := h3
    simp only [List.mem_singleton, Prod.mk.injEq] at h6
    obtain ⟨rfl, rfl⟩ := h6
    omega
  · rintro ⟨h1, h2⟩
    refine ⟨i, by omega, by omega, ?_⟩
    rw [mem_forRange]
    exact ⟨j, by omega, by omega, by simp⟩

theorem nodup_examinedPairs (n : Nat) : (examinedPairs n).Nodup := by
  unfold examinedPairs forPairs
  apply nodup_forRange
  · intro i
    apply nodup_forRange
    · intro j; simp
    · intro j1 j2 x hne h1 h2
      simp only [List.mem_singleton] at h1 h2
      rw [h1] at h2
      simp only [Prod.mk.injEq, true_and] at h2
      exact hne h2
  · intro i1 i2 x hne h1 h2
    rw [mem_forRange] at h1 h2
    obtain ⟨j1, _, _, e1⟩ := h1
    obtain ⟨j2, _, _, e2⟩ := h2
    simp only [List.mem_singleton] at e1 e2
    rw [e1] at e2
    simp only [Prod.mk.injEq] at e2
    exact hne e2.1

theorem two_mul_length_pairs (n k a : Nat) (h : a + k = n) :
    2 * (forRange (fun i => forRange (fun j => [(i, j)]) (i + 1) (n - (i + 1))) a k).length
      = k * (k - 1) := by
  induction k generalizing a with
  | zero => simp [forRange]
  | succ k ih =>
    simp only [forRange, List.length_append, length_forRange_singleton]
    have h1 := ih (a + 1) (by omega)
    have h2 : n - (a + 1) = k := by omega
    rw [h2, Nat.mul_add, h1]
    cases k with
    | zero => simp
    | succ m => simp only [Nat.add_sub_cancel]; ring

theorem length_examinedPairs (n : Nat) : (examinedPairs n).length = n * (n - 1) / 2 := by
  have h := two_mul_length_pairs n (n - 0) 0 (by omega)
  unfold examinedPairs forPairs
  simp only [Nat.sub_zero] at h ⊢
  omega

/-! ## Connections -/

theorem distanceSq_comm (a b : Particle) : distanceSq a b = distanceSq b a := by
  simp only [distanceSq]; ring

theorem connection_eq (cfg : Config) (a b : Particle) :
    connection cfg a b =
      if distanceSq a b < cfg.connectionDistance * cfg.connectionDistance then
        some (DrawOp.line a.x a.y b.x b.y
          (specOpacity cfg.connectionDistance (distanceSq a b)))
      else none := by
  simp only [connection, specOpacity]

theorem drawConnections_eq_flatMap (cfg : Config) (ps : List Particle) :
    drawConnections cfg ps =
      (examinedPairs ps.length).flatMap (fun ij => connectionAt cfg ps ij.1 ij.2) := by
  unfold drawConnections
  exact forPairs_eq_flatMap ps.length (connectionAt cfg ps)

/-- C9. Connection symmetry and pair enumeration: whether a line is drawn and the
opacity it gets are the same for the pair `(A, B)` and the pair `(B, A)`; and over
a collection of `n` particles `drawConnections` runs its loop body once for each
pair of indices `i < j < n`, which are `n (n - 1) / 2` pairs, each unordered pair
of distinct indices exactly once and never a pair `(i, i)`. -/
theorem connection_symmetric_pairs_once :
    (∀ (cfg : Config) (a b : Particle),
        (connection cfg a b).isSome = (connection cfg b a).isSome
          ∧ (connection cfg a b).bind DrawOp.lineAlpha
              = (connection cfg b a).bind DrawOp.lineAlpha)
      ∧ (∀ (cfg : Config) (ps : List Particle), drawConnections cfg ps =
          (examinedPairs ps.length).flatMap (fun ij => connectionAt cfg ps ij.1 ij.2))
      ∧ (∀ n : Nat, (examinedPairs n).Nodup
          ∧ (∀ i j : Nat, (i, j) ∈ examinedPairs n ↔ i < j ∧ j < n)
          ∧ (examinedPairs n).length = n * (n - 1) / 2
          ∧ (∀ i j : Nat, i < n → j < n → i ≠ j →
              (examinedPairs n).count (i, j) + (examinedPairs n).count (j, i) = 1)
          ∧ (∀ i : Nat, (i, i) ∉ examinedPairs n)) := by
  refine ⟨?_, drawConnections_eq_flatMap, ?_⟩
  · intro cfg a b
    rw [connection_eq, connection_eq, distanceSq_comm b a]
    split_ifs <;> simp [DrawOp.lineAlpha]
  · intro n
    refine ⟨nodup_examinedPairs n, mem_examinedPairs n, length_examinedPairs n, ?_, ?_⟩
    · intro i j hi hj hne
      rcases Nat.lt_or_gt_of_ne hne with hlt | hgt
      · have h1 : (i, j) ∈ examinedPairs n := (mem_examinedPairs n i j).mpr ⟨hlt, hj⟩
        have h2 : (j, i) ∉ examinedPairs n := by
          rw [mem_examinedPairs]; omega
        rw [count_eq_one_of_nodup (nodup_examinedPairs n) h1,
          List.count_eq_zero_of_not_mem h2]
      · have h1 : (j, i) ∈ examinedPairs n := (mem_examinedPairs n j i).mpr ⟨hgt, hi⟩
        have h2 : (i, j) ∉ examinedPairs n := by
          rw [mem_examinedPairs]; omega
        rw [count_eq_one_of_nodup (nodup_examinedPairs n) h1,
          List.count_eq_zero_of_not_mem h2]
    · intro i
      rw [mem_examinedPairs]; omega

/-! ## The particle field -/

theorem length_spawn (rand : Nat → ℚ) (canvas : Canvas) (cfg : Config) (count k : Nat) :
    (spawn rand canvas cfg k count).length = count := by
  induction count generalizing k with
  | zero => rfl
  | succ c ih => simp [spawn, ih]

/-- C5. The function `createParticles` leaves exactly `particleCount`
particles in the collection, whatever the collection held before: they are the
freshly spawned ones only, so the result does not depend on the prior
collection. With `particleCount = 0` the collection is empty and a frame issues
the `clearRect` and nothing else. -/
theorem createParticles_count (s : State) :
    (createParticles s).particles.length = s.cfg.particleCount
      ∧ (createParticles s).particles
          = spawn s.rand s.canvas s.cfg s.randIdx s.cfg.particleCount
      ∧ (∀ prior : List Particle,
          (createParticles { s with particles := prior }).particles
            = (createParticles s).particles)
      ∧ (s.cfg.particleCount = 0 →
          (createParticles s).particles = []
            ∧ frameOps (createParticles s)
                = [DrawOp.clearRect 0 0 s.canvas.width s.canvas.height]
            ∧ (animate (createParticles s)).frames
                = s.frames ++ [[DrawOp.clearRect 0 0 s.canvas.width s.canvas.height]]) := by
  have hp : (createParticles s).particles
      = spawn s.rand s.canvas s.cfg s.randIdx s.cfg.particleCount := by
    simp [createParticles]
  refine ⟨?_, hp, ?_, ?_⟩
  · rw [hp, length_spawn]
  · intro prior
    simp [createParticles]
  · intro h0
    have he : (createParticles s).particles = [] := by
      rw [hp, h0]; rfl
    have hf : frameOps (createParticles s)
        = [DrawOp.clearRect 0 0 s.canvas.width s.canvas.height] := by
      simp only [frameOps, he]
      simp [createParticles, stepParticles, drawConnections, forPairs, forRange]
    refine ⟨he, hf, ?_⟩
    simp only [animate, hf]
    simp [createParticles]

/-- The function `createParticles` with `particleCount = 0` on a field that holds one
particle: the collection becomes empty and the next frame only clears the
400 by 300 surface. -/
theorem createParticles_count_witness :
    (createParticles
        { load 1200 800 true sampleRand with
          cfg := ⟨0, 2, 0.4, 150, "rgba(0, 212, 255, 0.7)", "rgba(0, 255, 157, 0.15)"⟩
          canvas := ⟨400, 300⟩
          particles := [⟨10, 20, 1, 1, 2⟩] }).particles = []
      ∧ frameOps (createParticles
        { load 1200 800 true sampleRand with
          cfg := ⟨0, 2, 0.4, 150, "rgba(0, 212, 255, 0.7)", "rgba(0, 255, 157, 0.15)"⟩
          canvas := ⟨400, 300⟩
          particles := [⟨10, 20, 1, 1, 2⟩] }) = [DrawOp.clearRect 0 0 400 300] := by
  have h := (createParticles_count
    { load 1200 800 true sampleRand with
      cfg := ⟨0, 2, 0.4, 150, "rgba(0, 212, 255, 0.7)", "rgba(0, 255, 157, 0.15)"⟩
      canvas := ⟨400, 300⟩
      particles := [⟨10, 20, 1, 1, 2⟩] }).2.2.2 rfl
  exact ⟨h.1, h.2.1⟩

/-! ## Stationary particles -/

theorem Particle.update_stationary (canvas : Canvas) (p : Particle)
    (hv : Particle.stationary p) (hb : Particle.inBounds canvas p) :
    Particle.update canvas p = p := by
  obtain ⟨hvx, hvy⟩ := hv
  obtain ⟨h1, h2, h3, h4⟩ := hb
  have ex : (Particle.update canvas p).x = p.x := by
    rw [Particle.update_x, hvx, add_zero, if_neg (not_lt.mpr h1), if_neg (not_lt.mpr h2)]
  have ey : (Particle.update canvas p).y = p.y := by
    rw [Particle.update_y, hvy, add_zero, if_neg (not_lt.mpr h3), if_neg (not_lt.mpr h4)]
  cases p
  simp only [Particle.update] at ex ey ⊢
  simp only [Particle.mk.injEq, and_true]
  exact ⟨ex, ey⟩

theorem Particle.updateN_stationary (canvas : Canvas) (p : Particle) (n : Nat)
    (hv : Particle.stationary p) (hb : Particle.inBounds canvas p) :
    Particle.updateN canvas n p = p := by
  induction n with
  | zero => rfl
  | succ m ih => rw [Particle.updateN, Particle.update_stationary canvas p hv hb, ih]

theorem stepParticles_stationary (canvas : Canvas) (cfg : Config) (ps : List Particle)
    (h : ∀ p ∈ ps, Particle.stationary p ∧ Particle.inBounds canvas p) :
    (stepParticles canvas cfg ps).1 = ps := by
  induction ps with
  | nil => rfl
  | cons p rest ih =>
    have hp := h p (List.mem_cons_self p rest)
    simp only [stepParticles]
    rw [Particle.update_stationary canvas p hp.1 hp.2,
      ih (fun q hq => h q (List.mem_cons_of_mem p hq))]

theorem animateN_stationary (s : State) (n : Nat)
    (h : ∀ p ∈ s.particles, Particle.stationary p ∧ Particle.inBounds s.canvas p) :
    (animateN n s).particles = s.particles ∧ (animateN n s).canvas = s.canvas
      ∧ (animateN n s).cfg = s.cfg ∧ frameOps (animateN n s) = frameOps s
      ∧ (animateN n s).frames = s.frames ++ List.replicate n (frameOps s) := by
  induction n generalizing s with
  | zero => simp [animateN]
  | succ m ih =>
    have hstep : (animate s).particles = s.particles :=
      stepParticles_stationary s.canvas s.cfg s.particles h
    have hcanvas : (animate s).canvas = s.canvas := rfl
    have hcfg : (animate s).cfg = s.cfg := rfl
    have hops : frameOps (animate s) = frameOps s := by
      simp only [frameOps, hstep, hcanvas, hcfg]
    have h2 : ∀ p ∈ (animate s).particles,
        Particle.stationary p ∧ Particle.inBounds (animate s).canvas p := by
      rw [hstep, hcanvas]; exact h
    obtain ⟨i1, i2, i3, i4, i5⟩ := ih (animate s) h2
    simp only [animateN]
    refine ⟨i1.trans hstep, i2.trans hcanvas, i3.trans hcfg, i4.trans hops, ?_⟩
    rw [i5, hops]
    simp [animate, List.replicate_succ]

theorem scenario_particles :
    scenario.particles = [⟨0, 0, 0, 0, 3⟩, ⟨3, 4, 0, 0, 3⟩] := by
  simp [scenario, createParticles, load, spawn, Particle.reset, scenarioRand]

theorem scenario_frameOps :
    frameOps scenario =
      [DrawOp.clearRect 0 0 400 400,
        DrawOp.fillCircle 0 0 3 "rgba(0, 212, 255, 0.7)",
        DrawOp.fillCircle 3 4 3 "rgba(0, 212, 255, 0.7)",
        DrawOp.line 0 0 3 4 0.199995] := by
  have hc : scenario.canvas = ⟨400, 400⟩ := rfl
  have hg : scenario.cfg
      = ⟨2, 3, 0, 1000, "rgba(0, 212, 255, 0.7)", "rgba(0, 255, 157, 0.15)"⟩ := rfl
  simp only [frameOps, scenario_particles, hc, hg]
  simp [stepParticles, Particle.update, Particle.draw, drawConnections, forPairs, forRange,
    connectionAt, connection, distanceSq]
  norm_num

theorem stepParticles_fst (canvas : Canvas) (cfg : Config) (ps : List Particle) :
    (stepParticles canvas cfg ps).1 = ps.map (Particle.update canvas) := by
  induction ps with
  | nil => rfl
  | cons p rest ih => simp only [stepParticles, List.map_cons, ih]

theorem stepParticles_snd (canvas : Canvas) (cfg : Config) (ps : List Particle) :
    (stepParticles canvas cfg ps).2
      = (ps.map (Particle.update canvas)).map (Particle.draw cfg) := by
  induction ps with
  | nil => rfl
  | cons p rest ih => simp only [stepParticles, List.map_cons, ih]

theorem animateN_particles (s : State) (n : Nat) :
    (animateN n s).particles = s.particles.map (Particle.updateN s.canvas n)
      ∧ (animateN n s).canvas = s.canvas ∧ (animateN n s).cfg = s.cfg := by
  induction n generalizing s with
  | zero =>
    refine ⟨?_, rfl, rfl⟩
    have hid : Particle.updateN s.canvas 0 = id := by funext p; rfl
    simp only [animateN, hid, List.map_id]
  | succ m ih =>
    obtain ⟨i1, i2, i3⟩ := ih (animate s)
    have hp : (animate s).particles = s.particles.map (Particle.update s.canvas) :=
      stepParticles_fst s.canvas s.cfg s.particles
    have hc : (animate s).canvas = s.canvas := rfl
    have hg : (animate s).cfg = s.cfg := rfl
    refine ⟨?_, i2.trans hc, i3.trans hg⟩
    simp only [animateN]
    rw [i1, hp, hc, List.map_map]
    rfl

theorem animateN_getElem?_stationary (s : State) (n i : Nat) (p : Particle)
    (hi : s.particles[i]? = some p) (hv : Particle.stationary p)
    (hb : Particle.inBounds s.canvas p) :
    (animateN n s).particles[i]? = some p := by
  rw [(animateN_particles s n).1, List.getElem?_map, hi, Option.map_some',
    Particle.updateN_stationary s.canvas p n hv hb]

/-- C10. Stationary particles stay put and keep their connection. A frame updates
every particle of the field by `update` (and only by it), draws the updated
particles and the connections between them. A particle with zero velocity that
lies within the bounds is left unchanged by any number of updates, hence, whatever
the other particles of the field do, it is at the same index with the same
position after any number of frames; for two such particles the connection drawn
(whether, and with which opacity) is the same in every frame. A field of such
particles only is left unchanged by any number of frames and every frame issues
the same drawing operations. In the scenario of the specification (surface
400 by 400, connection distance 1000, zero-velocity particles seeded at `(0, 0)`
and `(3, 4)`) every frame draws the two particles and one connection of opacity
`(1 - 25 / 1000000) * 0.2 = 0.199995`, and neither particle ever moves. -/
theorem stationary_particles_stay :
    (∀ (canvas : Canvas) (p : Particle) (n : Nat),
        Particle.stationary p → Particle.inBounds canvas p →
          Particle.updateN canvas n p = p)
      ∧ (∀ (s : State) (n : Nat),
          (∀ p ∈ s.particles, Particle.stationary p ∧ Particle.inBounds s.canvas p) →
            (animateN n s).particles = s.particles
              ∧ frameOps (animateN n s) = frameOps s
              ∧ (animateN n s).frames = s.frames ++ List.replicate n (frameOps s))
      ∧ (∀ n : Nat,
          (animateN n scenario).particles = [⟨0, 0, 0, 0, 3⟩, ⟨3, 4, 0, 0, 3⟩]
            ∧ (animateN n scenario).frames = List.replicate n
                [DrawOp.clearRect 0 0 400 400,
                  DrawOp.fillCircle 0 0 3 "rgba(0, 212, 255, 0.7)",
                  DrawOp.fillCircle 3 4 3 "rgba(0, 212, 255, 0.7)",
                  DrawOp.line 0 0 3 4 ((1 - 25 / 1000000) * 0.2)]
            ∧ (1 - 25 / 1000000 : ℚ) * 0.2 = 0.199995)
      ∧ (∀ s : State,
          (animate s).particles = s.particles.map (Particle.update s.canvas)
            ∧ (animate s).frames = s.frames ++
                [[DrawOp.clearRect 0 0 s.canvas.width s.canvas.height]
                  ++ (animate s).particles.map (Particle.draw s.cfg)
                  ++ drawConnections s.cfg (animate s).particles])
      ∧ (∀ (s : State) (n : Nat),
          (animateN n s).particles = s.particles.map (Particle.updateN s.canvas n))
      ∧ (∀ (s : State) (n i : Nat) (p : Particle),
          s.particles[i]? = some p → Particle.stationary p →
            Particle.inBounds s.canvas p → (animateN n s).particles[i]? = some p)
      ∧ (∀ (s : State) (n i j : Nat) (a b : Particle),
          s.particles[i]? = some a → Particle.stationary a → Particle.inBounds s.canvas a →
          s.particles[j]? = some b → Particle.stationary b → Particle.inBounds s.canvas b →
            connectionAt (animateN n s).cfg (animateN n s).particles i j
              = (connection s.cfg a b).toList) := by
  refine ⟨?_, ?_, ?_, ?_, ?_, ?_, ?_⟩
  · intro canvas p n hv hb
    exact Particle.updateN_stationary canvas p n hv hb
  · intro s n h
    obtain ⟨i1, _, _, i4, i5⟩ := animateN_stationary s n h
    exact ⟨i1, i4, i5⟩
  · intro n
    have h : ∀ p ∈ scenario.particles,
        Particle.stationary p ∧ Particle.inBounds scenario.canvas p := by
      have hc : scenario.canvas = ⟨400, 400⟩ := rfl
      rw [scenario_particles, hc]
      intro p hp
      simp only [List.mem_cons, List.mem_singleton, List.not_mem_nil, or_false] at hp
      rcases hp with rfl | rfl <;>
        norm_num [Particle.stationary, Particle.inBounds]
    obtain ⟨i1, _, _, _, i5⟩ := animateN_stationary scenario n h
    have hf : scenario.frames = [] := rfl
    refine ⟨i1.trans scenario_particles, ?_, by norm_num⟩
    rw [i5, hf, scenario_frameOps, List.nil_append]
    norm_num
  · intro s
    have hp : (animate s).particles = s.particles.map (Particle.update s.canvas) :=
      stepParticles_fst s.canvas s.cfg s.particles
    refine ⟨hp, ?_⟩
    rw [hp]
    simp only [animate, frameOps, stepParticles_fst, stepParticles_snd]
  · intro s n
    exact (animateN_particles s n).1
  · intro s n i p hi hv hb
    exact animateN_getElem?_stationary s n i p hi hv hb
  · intro s n i j a b hi hva hba hj hvb hbb
    simp only [connectionAt, animateN_getElem?_stationary s n i a hi hva hba,
      animateN_getElem?_stationary s n j b hj hvb hbb, (animateN_particles s n).2.2]

/-- A field on a 400 by 300 surface whose first particle moves (5 to the right per
frame) and whose second particle has zero velocity: after three frames the first
is at `x = 25` and the second is where it was, at index 1. -/
theorem stationary_particles_stay_witness :
    ({ load 1200 800 true sampleRand with
        canvas := ⟨400, 300⟩
        particles := [⟨10, 10, 5, 0, 2⟩, ⟨100, 100, 0, 0, 2⟩] } : State).particles[1]?
        = some ⟨100, 100, 0, 0, 2⟩
      ∧ Particle.stationary ⟨100, 100, 0, 0, 2⟩
      ∧ Particle.inBounds ⟨400, 300⟩ ⟨100, 100, 0, 0, 2⟩
      ∧ (animateN 3 { load 1200 800 true sampleRand with
          canvas := ⟨400, 300⟩
          particles := [⟨10, 10, 5, 0, 2⟩, ⟨100, 100, 0, 0, 2⟩] }).particles[1]?
          = some ⟨100, 100, 0, 0, 2⟩
      ∧ (animateN 3 { load 1200 800 true sampleRand with
          canvas := ⟨400, 300⟩
          particles := [⟨10, 10, 5, 0, 2⟩, ⟨100, 100, 0, 0, 2⟩] }).particles[0]?
          = some ⟨25, 10, 5, 0, 2⟩ := by
  have hv : Particle.stationary ⟨100, 100, 0, 0, 2⟩ := ⟨rfl, rfl⟩
  have hb : Particle.inBounds ⟨400, 300⟩ ⟨100, 100, 0, 0, 2⟩ := by
    simp [Particle.inBounds]; norm_num
  refine ⟨rfl, hv, hb, ?_, ?_⟩
  · exact stationary_particles_stay.2.2.2.2.2.1
      { load 1200 800 true sampleRand with
        canvas := ⟨400, 300⟩
        particles := [⟨10, 10, 5, 0, 2⟩, ⟨100, 100, 0, 0, 2⟩] } 3 1
      ⟨100, 100, 0, 0, 2⟩ rfl hv hb
  · rw [stationary_particles_stay.2.2.2.2.1]
    simp [load, Particle.updateN, Particle.update]
    norm_num

/-! ## Frame scheduling and visibility -/

theorem runFrameCallbacks_single (s : State) (k : Nat) (hp : s.pending = [k]) :
    runFrameCallbacks s = animate { s with pending := [] } := by
  simp [runFrameCallbacks, hp]

/-- C6. Visibility pause and resume from a running scheduler (exactly one frame
request pending, the one held in `animationId`): the hidden signal cancels that
request and runs nothing; the visible signal that follows runs exactly one frame
(clear, step, connections) at once and leaves exactly one request pending. The
particles and the frames drawn are then exactly those of continuous running over
one display refresh, which also leaves one request pending: no frame is
duplicated and none is skipped. -/
theorem hidden_then_visible_one_frame (s : State) (k : Nat) (hk : 0 < k)
    (hp : s.pending = [k]) (ha : s.animationId = some k) :
    (run s [Event.visibilityChange true]).pending = []
      ∧ (run s [Event.visibilityChange true]).frames = s.frames
      ∧ (run s [Event.visibilityChange true]).particles = s.particles
      ∧ (run s [Event.visibilityChange true, Event.visibilityChange false]).frames
          = s.frames ++ [[DrawOp.clearRect 0 0 s.canvas.width s.canvas.height]
              ++ (stepParticles s.canvas s.cfg s.particles).2
              ++ drawConnections s.cfg (stepParticles s.canvas s.cfg s.particles).1]
      ∧ framesRun (run s [Event.visibilityChange true, Event.visibilityChange false])
          = framesRun s + 1
      ∧ (run s [Event.visibilityChange true, Event.visibilityChange false]).pending
          = [s.lastHandle + 1]
      ∧ (run s [Event.visibilityChange true, Event.visibilityChange false]).animationId
          = some (s.lastHandle + 1)
      ∧ (run s [Event.visibilityChange true, Event.visibilityChange false]).particles
          = (run s [Event.refresh]).particles
      ∧ (run s [Event.visibilityChange true, Event.visibilityChange false]).frames
          = (run s [Event.refresh]).frames
      ∧ (run s [Event.refresh]).pending = [s.lastHandle + 1]
      ∧ (run s [Event.refresh]).animationId = some (s.lastHandle + 1) := by
  have hk0 : k ≠ 0 := Nat.pos_iff_ne_zero.mp hk
  have hidden : run s [Event.visibilityChange true] = { s with pending := [] } := by
    simp [run, handle, onVisibilityChange, truthy, ha, hk0, cancelAnimationFrame, hp]
  have both : run s [Event.visibilityChange true, Event.visibilityChange false]
      = animate { s with pending := [] } := by
    have e : run s [Event.visibilityChange true, Event.visibilityChange false]
        = handle (run s [Event.visibilityChange true]) (Event.visibilityChange false) := rfl
    rw [e, hidden]
    rfl
  have refresh : run s [Event.refresh] = animate { s with pending := [] } := by
    have e : run s [Event.refresh] = runFrameCallbacks s := rfl
    rw [e, runFrameCallbacks_single s k hp]
  rw [both, refresh, hidden]
  refine ⟨rfl, rfl, rfl, rfl, ?_, rfl, rfl, rfl, rfl, rfl, rfl⟩
  simp [framesRun, animate]

/-- The scheduler right after `init` on a 1200 by 800 window is running with the
request of handle 1 pending; hidden then visible runs one more frame (the second)
and leaves the request of handle 2 pending. -/
theorem hidden_then_visible_one_frame_witness :
    0 < 1 ∧ (init (load 1200 800 true sampleRand)).pending = [1]
      ∧ (init (load 1200 800 true sampleRand)).animationId = some 1
      ∧ framesRun (run (init (load 1200 800 true sampleRand))
          [Event.visibilityChange true, Event.visibilityChange false]) = 2
      ∧ (run (init (load 1200 800 true sampleRand))
          [Event.visibilityChange true, Event.visibilityChange false]).pending = [2] := by
  have h := hidden_then_visible_one_frame (init (load 1200 800 true sampleRand)) 1
    (by decide) rfl rfl
  exact ⟨by decide, rfl, rfl, h.2.2.2.2.1, h.2.2.2.2.2.1⟩

/-- C7 (what the code does). The page is loaded while hidden, so `init` leaves
one request pending; the visible signal then calls `animate` once more without
cancelling it, and two requests are outstanding. The next hidden signal cancels
only the one held in `animationId`: the request of handle 1 stays outstanding,
and when the host serves it a frame runs (the third) although no visible signal
has arrived since the hidden one. -/
theorem visible_while_running_leaks_request :
    (run (load 1200 800 true sampleRand) [Event.init]).pending = [1]
      ∧ (run (load 1200 800 true sampleRand)
          [Event.init, Event.visibilityChange false]).pending = [1, 2]
      ∧ (run (load 1200 800 true sampleRand)
          [Event.init, Event.visibilityChange false, Event.visibilityChange true]).pending
            = [1]
      ∧ framesRun (run (load 1200 800 true sampleRand)
          [Event.init, Event.visibilityChange false, Event.visibilityChange true]) = 2
      ∧ framesRun (run (load 1200 800 true sampleRand)
          [Event.init, Event.visibilityChange false, Event.visibilityChange true,
            Event.refresh]) = 3
      ∧ (run (load 1200 800 true sampleRand)
          [Event.init, Event.visibilityChange false, Event.visibilityChange true,
            Event.refresh]).pending = [3] := by
  refine ⟨rfl, rfl, ?_, ?_, ?_, ?_⟩ <;> decide

/-- C8 (what the code does). Without the element `particles`, `init` returns at
once: nothing is attached, no particle is created, no frame runs and no request
is made, and a hidden signal changes none of that. The `visibilitychange`
listener is registered all the same, so the next visible signal calls `animate`:
a frame runs on the detached canvas and a frame request is scheduled, and from
then on every display refresh runs a frame. -/
theorem absent_container_visible_runs_frame :
    (run (load 1200 800 false sampleRand) [Event.init]).attached = false
      ∧ (run (load 1200 800 false sampleRand) [Event.init]).particles = []
      ∧ (run (load 1200 800 false sampleRand)
          [Event.init, Event.windowResize 800 600, Event.resizeTimer,
            Event.visibilityChange true]).frames = []
      ∧ (run (load 1200 800 false sampleRand)
          [Event.init, Event.windowResize 800 600, Event.resizeTimer,
            Event.visibilityChange true]).pending = []
      ∧ (run (load 1200 800 false sampleRand)
          [Event.init, Event.visibilityChange true, Event.visibilityChange false]).frames
            = [[DrawOp.clearRect 0 0 300 150]]
      ∧ (run (load 1200 800 false sampleRand)
          [Event.init, Event.visibilityChange true, Event.visibilityChange false]).pending
            = [1]
      ∧ framesRun (run (load 1200 800 false sampleRand)
          [Event.init, Event.visibilityChange true, Event.visibilityChange false,
            Event.refresh, Event.refresh]) = 3 := by
  refine ⟨rfl, rfl, rfl, rfl, ?_, ?_, ?_⟩ <;> decide

/-! ## Connections in binary64 -/

/-! ### Rounding -/

theorem floor_le_roundHalfEven (m : ℚ) : ⌊m⌋ ≤ roundHalfEven m := by
  unfold roundHalfEven
  simp only
  split_ifs <;> omega

theorem roundHalfEven_le_floor_add_one (m : ℚ) : roundHalfEven m ≤ ⌊m⌋ + 1 := by
  unfold roundHalfEven
  simp only
  split_ifs <;> omega

theorem roundHalfEven_mono {m n : ℚ} (h : m ≤ n) : roundHalfEven m ≤ roundHalfEven n := by
  have hf : ⌊m⌋ ≤ ⌊n⌋ := Int.floor_mono h
  rcases hf.lt_or_eq with hlt | heq
  · calc roundHalfEven m ≤ ⌊m⌋ + 1 := roundHalfEven_le_floor_add_one m
      _ ≤ ⌊n⌋ := hlt
      _ ≤ roundHalfEven n := floor_le_roundHalfEven n
  · unfold roundHalfEven
    simp only
    rw [heq]
    split_ifs <;> first | omega | (exfalso; linarith)

theorem roundHalfEven_eq_of_near (m : ℚ) (n : ℤ) (h : |m - n| < 1 / 2) :
    roundHalfEven m = n := by
  rw [abs_lt] at h
  by_cases hc : (n : ℚ) ≤ m
  · have hf : ⌊m⌋ = n := by
      rw [Int.floor_eq_iff]; constructor <;> linarith
    unfold roundHalfEven
    simp only [hf]
    rw [if_pos (by linarith)]
  · have hf : ⌊m⌋ = n - 1 := by
      rw [Int.floor_eq_iff]; push_cast; constructor <;> linarith
    unfold roundHalfEven
    simp only [hf]
    push_cast
    rw [if_neg (by linarith), if_pos (by linarith)]
    ring

theorem roundHalfEven_intCast (n : ℤ) : roundHalfEven (n : ℚ) = n :=
  roundHalfEven_eq_of_near _ n (by simp)

theorem roundHalfEven_le_of_lt (m : ℚ) (n : ℤ) (h : m < n + 1 / 2) : roundHalfEven m ≤ n := by
  have hf : ⌊m⌋ ≤ n := by
    have : ⌊m⌋ < n + 1 := by
      rw [Int.floor_lt]; push_cast; linarith
    omega
  rcases hf.lt_or_eq with hlt | heq
  · have := roundHalfEven_le_floor_add_one m
    omega
  · unfold roundHalfEven
    simp only [heq]
    rw [if_pos (by linarith)]

theorem two_zpow_pos (q : ℤ) : (0 : ℚ) < (2 : ℚ) ^ q := zpow_pos (by norm_num) q

theorem roundAt_mono (q : ℤ) {x y : ℚ} (h : x ≤ y) : roundAt q x ≤ roundAt q y := by
  unfold roundAt
  have hd : x / (2 : ℚ) ^ q ≤ y / (2 : ℚ) ^ q := div_le_div_of_nonneg_right h (two_zpow_pos q).le
  have hr : ((roundHalfEven (x / (2 : ℚ) ^ q) : ℤ) : ℚ) ≤ (roundHalfEven (y / (2 : ℚ) ^ q) : ℤ) :=
    Int.cast_le.mpr (roundHalfEven_mono hd)
  exact mul_le_mul_of_nonneg_right hr (two_zpow_pos q).le

theorem roundAt_multiple (q n : ℤ) : roundAt q ((n : ℚ) * (2 : ℚ) ^ q) = (n : ℚ) * (2 : ℚ) ^ q := by
  unfold roundAt
  rw [mul_div_assoc, div_self (two_zpow_pos q).ne.symm, mul_one, roundHalfEven_intCast]

theorem roundAt_zero (q : ℤ) : roundAt q 0 = 0 := by
  have h := roundAt_multiple q 0
  simpa using h

theorem roundAt_nonneg (q : ℤ) {x : ℚ} (h : 0 ≤ x) : 0 ≤ roundAt q x := by
  have := roundAt_mono q h
  rwa [roundAt_zero] at this

/-- A power of two at or above the quantum is a multiple of the quantum. -/
theorem roundAt_two_zpow (q e : ℤ) (h : q ≤ e) : roundAt q ((2 : ℚ) ^ e) = (2 : ℚ) ^ e := by
  have hk : (2 : ℚ) ^ e = (((2 : ℤ) ^ (e - q).toNat : ℤ) : ℚ) * (2 : ℚ) ^ q := by
    have h1 : e = ((e - q).toNat : ℤ) + q := by
      rw [Int.toNat_of_nonneg (by omega)]; ring
    conv_lhs => rw [h1]
    rw [zpow_add₀ (by norm_num : (2 : ℚ) ≠ 0), zpow_natCast]
    push_cast
    ring
  rw [hk, roundAt_multiple]

theorem log_bounds {x : ℚ} (hx : 0 < x) :
    (2 : ℚ) ^ Int.log 2 x ≤ x ∧ x < (2 : ℚ) ^ (Int.log 2 x + 1) := by
  have h1 := Int.zpow_log_le_self (b := 2) (r := x) (by norm_num) hx
  have h2 := Int.lt_zpow_succ_log_self (b := 2) (by norm_num) x
  push_cast at h1 h2
  exact ⟨h1, h2⟩

theorem log_eq_of_bounds {x : ℚ} (e : ℤ) (h1 : (2 : ℚ) ^ e ≤ x) (h2 : x < (2 : ℚ) ^ (e + 1)) :
    Int.log 2 x = e := by
  have hx : 0 < x := lt_of_lt_of_le (two_zpow_pos e) h1
  have a : e ≤ Int.log 2 x := by
    rw [← Int.zpow_le_iff_le_log (by norm_num) hx]; push_cast; exact h1
  have b : Int.log 2 x < e + 1 := by
    rw [← Int.lt_zpow_iff_log_lt (by norm_num) hx]; push_cast; exact h2
  omega

theorem quantum_of_bounds {x : ℚ} (e : ℤ) (hx : 0 ≤ x) (h1 : (2 : ℚ) ^ e ≤ x)
    (h2 : x < (2 : ℚ) ^ (e + 1)) : quantum x = max (e - 52) (-1074) := by
  unfold quantum
  rw [abs_of_nonneg hx, log_eq_of_bounds e h1 h2]

theorem round64_of_nonneg {x : ℚ} (hx : 0 ≤ x) : round64 x = roundAt (quantum x) x := by
  unfold round64; rw [if_pos hx]

theorem round64_zero : round64 0 = 0 := by
  rw [round64_of_nonneg le_rfl, roundAt_zero]

theorem round64_nonneg {x : ℚ} (hx : 0 ≤ x) : 0 ≤ round64 x := by
  rw [round64_of_nonneg hx]; exact roundAt_nonneg _ hx

theorem round64_mono_of_pos {x y : ℚ} (hx : 0 < x) (h : x ≤ y) : round64 x ≤ round64 y := by
  have hy : 0 < y := lt_of_lt_of_le hx h
  rw [round64_of_nonneg hx.le, round64_of_nonneg hy.le]
  have hlog : Int.log 2 x ≤ Int.log 2 y := Int.log_mono_right hx h
  have hq : quantum x ≤ quantum y := by
    unfold quantum
    rw [abs_of_pos hx, abs_of_pos hy]
    omega
  rcases hq.lt_or_eq with hlt | heq
  · obtain ⟨_, hxu⟩ := log_bounds hx
    obtain ⟨hyl, _⟩ := log_bounds hy
    have hqx : quantum x = max (Int.log 2 x - 52) (-1074) := by
      unfold quantum; rw [abs_of_pos hx]
    have hqy : quantum y = max (Int.log 2 y - 52) (-1074) := by
      unfold quantum; rw [abs_of_pos hy]
    have e1 : quantum y = Int.log 2 y - 52 := by omega
    have e2 : Int.log 2 x + 1 ≤ Int.log 2 y := by omega
    have hB : (2 : ℚ) ^ (Int.log 2 x + 1) ≤ (2 : ℚ) ^ Int.log 2 y :=
      zpow_le_zpow_right₀ (by norm_num) e2
    calc roundAt (quantum x) x
        ≤ roundAt (quantum x) ((2 : ℚ) ^ Int.log 2 y) :=
          roundAt_mono _ (le_trans hxu.le hB)
      _ = (2 : ℚ) ^ Int.log 2 y := roundAt_two_zpow _ _ (by omega)
      _ = roundAt (quantum y) ((2 : ℚ) ^ Int.log 2 y) :=
          (roundAt_two_zpow _ _ (by omega)).symm
      _ ≤ roundAt (quantum y) y := roundAt_mono _ hyl
  · rw [heq]
    exact roundAt_mono _ h

theorem round64_mono {x y : ℚ} (hx : 0 ≤ x) (h : x ≤ y) : round64 x ≤ round64 y := by
  rcases hx.lt_or_eq with hpos | hzero
  · exact round64_mono_of_pos hpos h
  · rw [← hzero, round64_zero]
    exact round64_nonneg (hzero ▸ h)


theorem div_quantum_lt {x : ℚ} (hx : 0 < x) : x / (2 : ℚ) ^ quantum x < 2 ^ 53 := by
  obtain ⟨_, hu⟩ := log_bounds hx
  have hq : Int.log 2 x + 1 ≤ quantum x + 53 := by
    unfold quantum; rw [abs_of_pos hx]; omega
  have h1 : (2 : ℚ) ^ (Int.log 2 x + 1) ≤ (2 : ℚ) ^ (quantum x + 53) :=
    zpow_le_zpow_right₀ (by norm_num) hq
  have h2 : (2 : ℚ) ^ (quantum x + 53) = 2 ^ 53 * (2 : ℚ) ^ quantum x := by
    rw [zpow_add₀ (by norm_num : (2 : ℚ) ≠ 0)]
    norm_num
    ring
  rw [div_lt_iff₀ (two_zpow_pos _)]
  calc x < (2 : ℚ) ^ (Int.log 2 x + 1) := hu
    _ ≤ (2 : ℚ) ^ (quantum x + 53) := h1
    _ = 2 ^ 53 * (2 : ℚ) ^ quantum x := h2

theorem round64_inG {x : ℚ} (hx : 0 ≤ x) : InG (round64 x) := by
  rw [round64_of_nonneg hx]
  rcases hx.lt_or_eq with hpos | hzero
  · refine ⟨roundHalfEven (x / (2 : ℚ) ^ quantum x), quantum x, ?_, rfl⟩
    have h0 : 0 ≤ roundHalfEven (x / (2 : ℚ) ^ quantum x) := by
      have := roundHalfEven_mono (div_nonneg hx (two_zpow_pos (quantum x)).le)
      rwa [show roundHalfEven 0 = 0 from by simpa using roundHalfEven_intCast 0] at this
    have h1 : roundHalfEven (x / (2 : ℚ) ^ quantum x) ≤ 2 ^ 53 := by
      apply roundHalfEven_le_of_lt
      have := div_quantum_lt hpos
      push_cast
      linarith
    rw [abs_of_nonneg h0]
    exact h1
  · rw [← hzero, roundAt_zero]
    exact ⟨0, 0, by norm_num, by simp⟩

/-- Two distinct rounded values are apart by more than the fraction `2 ^ -54`
of the larger: their quotient stays below `1 - 2 ^ -54`. -/
theorem div_lt_of_inG {x y : ℚ} (hx : InG x) (hy : InG y) (h0 : 0 ≤ x) (hlt : x < y) :
    x / y < 1 - 1 / 2 ^ 54 := by
  obtain ⟨k, r, hk, rfl⟩ := hx
  obtain ⟨m, q, hm, rfl⟩ := hy
  have hypos : (0 : ℚ) < (m : ℚ) * (2 : ℚ) ^ q := lt_of_le_of_lt h0 hlt
  have hk' : (k : ℚ) ≤ 2 ^ 53 := by
    have : k ≤ 2 ^ 53 := le_trans (le_abs_self k) hk
    exact_mod_cast this
  have hm' : (m : ℚ) ≤ 2 ^ 53 := by
    have : m ≤ 2 ^ 53 := le_trans (le_abs_self m) hm
    exact_mod_cast this
  rw [div_lt_iff₀ hypos]
  rcases le_or_lt q r with hqr | hrq
  · -- both are multiples of `2 ^ q`
    have hr : (2 : ℚ) ^ r = (((2 : ℤ) ^ (r - q).toNat : ℤ) : ℚ) * (2 : ℚ) ^ q := by
      have h1 : r = ((r - q).toNat : ℤ) + q := by
        rw [Int.toNat_of_nonneg (by omega)]; ring
      conv_lhs => rw [h1]
      rw [zpow_add₀ (by norm_num : (2 : ℚ) ≠ 0), zpow_natCast]
      push_cast
      ring
    rw [hr, ← mul_assoc] at hlt h0 ⊢
    have hint : k * (2 : ℤ) ^ (r - q).toNat < m := by
      have := lt_of_mul_lt_mul_right hlt (two_zpow_pos q).le
      exact_mod_cast this
    have hge : ((k * (2 : ℤ) ^ (r - q).toNat : ℤ) : ℚ) + 1 ≤ (m : ℚ) := by
      exact_mod_cast hint
    push_cast at hge ⊢
    have hP := two_zpow_pos q
    have key : (k : ℚ) * (2 : ℚ) ^ (r - q).toNat < (1 - 1 / 2 ^ 54) * (m : ℚ) := by
      linarith
    have := mul_lt_mul_of_pos_right key hP
    linarith
  · -- both are multiples of `2 ^ r`
    have hq : (2 : ℚ) ^ q = (((2 : ℤ) ^ (q - r).toNat : ℤ) : ℚ) * (2 : ℚ) ^ r := by
      have h1 : q = ((q - r).toNat : ℤ) + r := by
        rw [Int.toNat_of_nonneg (by omega)]; ring
      conv_lhs => rw [h1]
      rw [zpow_add₀ (by norm_num : (2 : ℚ) ≠ 0), zpow_natCast]
      push_cast
      ring
    rw [hq, ← mul_assoc] at hlt hypos ⊢
    have hint : k < m * (2 : ℤ) ^ (q - r).toNat := by
      have := lt_of_mul_lt_mul_right hlt (two_zpow_pos r).le
      exact_mod_cast this
    have hge : (k : ℚ) + 1 ≤ ((m * (2 : ℤ) ^ (q - r).toNat : ℤ) : ℚ) := by
      exact_mod_cast hint
    have hP := two_zpow_pos r
    have hk0 : (0 : ℚ) ≤ (k : ℚ) := by
      have := nonneg_of_mul_nonneg_left h0 hP
      exact this
    push_cast at hge ⊢
    have key : (k : ℚ) < (1 - 1 / 2 ^ 54) * ((m : ℚ) * (2 : ℚ) ^ (q - r).toNat) := by
      linarith
    have := mul_lt_mul_of_pos_right key hP
    linarith

/-! ### Values of the rounding at given inputs -/

theorem round64_eval {x : ℚ} (e n : ℤ) (hx : 0 ≤ x) (h1 : (2 : ℚ) ^ e ≤ x)
    (h2 : x < (2 : ℚ) ^ (e + 1))
    (hn : |x / (2 : ℚ) ^ (max (e - 52) (-1074)) - n| < 1 / 2) :
    round64 x = (n : ℚ) * (2 : ℚ) ^ (max (e - 52) (-1074)) := by
  rw [round64_of_nonneg hx, quantum_of_bounds e hx h1 h2]
  unfold roundAt
  rw [roundHalfEven_eq_of_near _ n hn]

theorem round64_one : round64 1 = 1 := by
  rw [round64_eval (x := 1) 0 (2 ^ 52) (by norm_num) (by norm_num) (by norm_num) (by norm_num)]
  norm_num

theorem round64_lit : round64 0.2 = c02 := by
  rw [round64_eval (x := 0.2) (-3) 7205759403792794 (by norm_num) (by norm_num) (by norm_num)
    (by norm_num [abs_lt])]
  norm_num [c02]

theorem round64_c02 : round64 c02 = c02 := by
  rw [round64_eval (x := c02) (-3) 7205759403792794 (by norm_num [c02]) (by norm_num [c02])
    (by norm_num [c02]) (by norm_num [c02])]
  norm_num [c02]

theorem round64_c02_div : round64 (c02 / 2 ^ 53) = c02 / 2 ^ 53 := by
  rw [round64_eval (x := c02 / 2 ^ 53) (-56) 7205759403792794 (by norm_num [c02])
    (by norm_num [c02]) (by norm_num [c02]) (by norm_num [c02])]
  norm_num [c02]

theorem round64_ulp : round64 (1 / 2 ^ 53) = 1 / 2 ^ 53 := by
  rw [round64_eval (x := 1 / 2 ^ 53) (-53) (2 ^ 52) (by norm_num) (by norm_num) (by norm_num)
    (by norm_num)]
  norm_num

/-! ### The operations on the values `drawConnections` meets -/

theorem F64.ofRat_of_le_one {x : ℚ} (h0 : 0 ≤ x) (h1 : x ≤ 1) :
    F64.ofRat x = F64.fin (round64 x) ∧ 0 ≤ round64 x ∧ round64 x ≤ 1 := by
  have hr0 : 0 ≤ round64 x := round64_nonneg h0
  have hr1 : round64 x ≤ 1 := by
    have := round64_mono h0 h1
    rwa [round64_one] at this
  refine ⟨?_, hr0, hr1⟩
  unfold F64.ofRat
  rw [if_neg]
  rw [abs_of_nonneg hr0, not_le]
  exact lt_of_le_of_lt hr1 (by norm_num)

theorem F64.ofRat_zero : F64.ofRat 0 = F64.fin 0 := by
  have h := (F64.ofRat_of_le_one (x := 0) le_rfl (by norm_num)).1
  rw [h, round64_zero]

theorem F64.ofRat_lit : F64.ofRat 0.2 = F64.fin c02 := by
  have h := (F64.ofRat_of_le_one (x := 0.2) (by norm_num) (by norm_num)).1
  rw [h, round64_lit]

theorem F64.ofRat_nonnegRounded {x : ℚ} (hx : 0 ≤ x) : F64.NonnegRounded (F64.ofRat x) := by
  unfold F64.ofRat
  split_ifs
  · right
    rw [decide_eq_false (not_lt.mpr hx)]
  · left
    exact ⟨round64 x, rfl, round64_nonneg hx, round64_inG hx⟩

theorem F64.ofRat_cases (x : ℚ) :
    (∃ v, F64.ofRat x = F64.fin v) ∨ (∃ s, F64.ofRat x = F64.inf s) := by
  unfold F64.ofRat
  split_ifs
  · exact Or.inr ⟨_, rfl⟩
  · exact Or.inl ⟨_, rfl⟩

theorem F64.mul_self_ofRat (x : ℚ) :
    F64.NonnegRounded (F64.mul (F64.ofRat x) (F64.ofRat x)) := by
  rcases F64.ofRat_cases x with ⟨v, hv⟩ | ⟨s, hs⟩
  · rw [hv]
    exact F64.ofRat_nonnegRounded (mul_self_nonneg v)
  · rw [hs]
    right
    simp [F64.mul]

theorem F64.add_nonnegRounded {f g : F64} (hf : f.NonnegRounded) (hg : g.NonnegRounded) :
    (F64.add f g).NonnegRounded := by
  rcases hf with ⟨u, rfl, hu, _⟩ | rfl <;> rcases hg with ⟨w, rfl, hw, _⟩ | rfl
  · exact F64.ofRat_nonnegRounded (add_nonneg hu hw)
  · right; rfl
  · right; rfl
  · right; rfl

theorem distanceSq64_nonnegRounded (a b : Particle) : (distanceSq64 a b).NonnegRounded := by
  unfold distanceSq64
  exact F64.add_nonnegRounded (F64.mul_self_ofRat _) (F64.mul_self_ofRat _)

theorem maxDistanceSq64_nonnegRounded (cfg : Config) : (maxDistanceSq64 cfg).NonnegRounded := by
  unfold maxDistanceSq64
  exact F64.ofRat_nonnegRounded (mul_self_nonneg _)

theorem F64.lt_irrefl (f : F64) : F64.lt f f = false := by
  cases f with
  | fin v => simp [F64.lt]
  | inf s => cases s <;> rfl
  | nan => rfl

theorem round64_le_pred_one {z : ℚ} (h0 : 0 ≤ z) (h1 : z < 1 - 1 / 2 ^ 54) :
    round64 z ≤ 1 - 1 / 2 ^ 53 := by
  have hz : z ≤ max z (1 / 2) := le_max_left _ _
  have hlo : (1 / 2 : ℚ) ≤ max z (1 / 2) := le_max_right _ _
  have hhi : max z (1 / 2) < 1 - 1 / 2 ^ 54 := max_lt h1 (by norm_num)
  have hpos : (0 : ℚ) ≤ max z (1 / 2) := le_trans (by norm_num) hlo
  refine le_trans (round64_mono h0 hz) ?_
  rw [round64_of_nonneg hpos,
    quantum_of_bounds (-1) hpos
      (by rw [show (2 : ℚ) ^ (-1 : ℤ) = 1 / 2 by norm_num]; exact hlo)
      (by rw [show (2 : ℚ) ^ ((-1 : ℤ) + 1) = 1 by norm_num]; linarith)]
  unfold roundAt
  have hn : roundHalfEven (max z (1 / 2) / (2 : ℚ) ^ (max (-1 - 52) (-1074) : ℤ)) ≤ 2 ^ 53 - 1 := by
    apply roundHalfEven_le_of_lt
    norm_num
    linarith
  have hq : ((roundHalfEven (max z (1 / 2) / (2 : ℚ) ^ (max (-1 - 52) (-1074) : ℤ)) : ℤ) : ℚ)
      ≤ 2 ^ 53 - 1 := by
    exact_mod_cast hn
  norm_num at hq ⊢
  linarith

/-- The opacity the source computes from the rounded quotient `v`:
`(1 - v) * 0.2`, rounded after each operation. -/
theorem opacity_of_quotient {v : ℚ} (h0 : 0 ≤ v) (h1 : v ≤ 1 - 1 / 2 ^ 53) :
    F64.mul (F64.sub (F64.fin 1) (F64.fin v)) (F64.ofRat 0.2)
        = F64.fin (round64 (round64 (1 + -v) * c02))
      ∧ c02 / 2 ^ 53 ≤ round64 (round64 (1 + -v) * c02)
      ∧ round64 (round64 (1 + -v) * c02) ≤ c02 := by
  have hc0 : (0 : ℚ) < c02 := by norm_num [c02]
  have hc1 : c02 ≤ 1 := by norm_num [c02]
  have ha : (1 / 2 ^ 53 : ℚ) ≤ 1 + -v := by linarith
  have hb : 1 + -v ≤ (1 : ℚ) := by linarith
  obtain ⟨e1, o0, o1⟩ := F64.ofRat_of_le_one (x := 1 + -v) (by linarith) hb
  have olo : 1 / 2 ^ 53 ≤ round64 (1 + -v) := by
    have := round64_mono (by norm_num : (0 : ℚ) ≤ 1 / 2 ^ 53) ha
    rwa [round64_ulp] at this
  have p0 : 0 ≤ round64 (1 + -v) * c02 := mul_nonneg o0 hc0.le
  have p1 : round64 (1 + -v) * c02 ≤ c02 := by nlinarith
  have plo : c02 / 2 ^ 53 ≤ round64 (1 + -v) * c02 := by
    have := mul_le_mul_of_nonneg_right olo hc0.le
    linarith
  obtain ⟨e2, _, _⟩ := F64.ofRat_of_le_one (x := round64 (1 + -v) * c02) p0 (le_trans p1 hc1)
  refine ⟨?_, ?_, ?_⟩
  · simp only [F64.sub, F64.neg, F64.add, e1, F64.ofRat_lit, F64.mul, e2]
  · have := round64_mono (by positivity : (0 : ℚ) ≤ c02 / 2 ^ 53) plo
    rwa [round64_c02_div] at this
  · have := round64_mono p0 p1
    rwa [round64_c02] at this

theorem opacity_of_quotient_anti {v w : ℚ} (hvw : v ≤ w) (h1 : w ≤ 1 - 1 / 2 ^ 53) :
    round64 (round64 (1 + -w) * c02) ≤ round64 (round64 (1 + -v) * c02) := by
  have hc0 : (0 : ℚ) < c02 := by norm_num [c02]
  have hw : (0 : ℚ) ≤ 1 + -w := by
    have : (0 : ℚ) ≤ 1 / 2 ^ 53 := by norm_num
    linarith
  have hm : round64 (1 + -w) ≤ round64 (1 + -v) := round64_mono hw (by linarith)
  exact round64_mono (mul_nonneg (round64_nonneg hw) hc0.le)
    (mul_le_mul_of_nonneg_right hm hc0.le)

/-- The quotient `distanceSq / maxDistanceSq` of a drawn pair is a finite value
in `[0, 1 - 2 ^ -53]`. -/
theorem div_of_lt {u w : ℚ} (hu : 0 ≤ u) (hGu : InG u) (hGw : InG w) (hlt : u < w) :
    F64.div (F64.fin u) (F64.fin w) = F64.fin (round64 (u / w))
      ∧ 0 ≤ round64 (u / w) ∧ round64 (u / w) ≤ 1 - 1 / 2 ^ 53 := by
  have hw : 0 < w := lt_of_le_of_lt hu hlt
  have hq0 : 0 ≤ u / w := div_nonneg hu hw.le
  have hq1 : u / w < 1 - 1 / 2 ^ 54 := div_lt_of_inG hGu hGw hu hlt
  obtain ⟨e, r0, _⟩ := F64.ofRat_of_le_one hq0 (by linarith [show (0 : ℚ) < 1 / 2 ^ 54 by norm_num])
  refine ⟨?_, r0, round64_le_pred_one hq0 hq1⟩
  simp only [F64.div, if_neg hw.ne.symm, e]

theorem F64.ofRat_eval {x : ℚ} (e n : ℤ) (hx : 0 ≤ x) (h1 : (2 : ℚ) ^ e ≤ x)
    (h2 : x < (2 : ℚ) ^ (e + 1))
    (hn : |x / (2 : ℚ) ^ (max (e - 52) (-1074)) - n| < 1 / 2)
    (hfin : (n : ℚ) * (2 : ℚ) ^ (max (e - 52) (-1074)) < 2 ^ 1024) :
    F64.ofRat x = F64.fin ((n : ℚ) * (2 : ℚ) ^ (max (e - 52) (-1074))) := by
  have hr := round64_eval e n hx h1 h2 hn
  have h0 := round64_nonneg hx
  unfold F64.ofRat
  rw [if_neg, hr]
  rw [abs_of_nonneg h0, not_le, hr]
  exact hfin

theorem drawn_forms {d M : F64} (hd : d.NonnegRounded) (hM : M.NonnegRounded)
    (hlt : F64.lt d M = true) :
    ∃ u : ℚ, d = F64.fin u ∧ 0 ≤ u ∧ InG u
      ∧ ((∃ w : ℚ, M = F64.fin w ∧ u < w ∧ InG w) ∨ M = F64.inf false) := by
  rcases hd with ⟨u, rfl, hu, hGu⟩ | rfl
  · refine ⟨u, rfl, hu, hGu, ?_⟩
    rcases hM with ⟨w, rfl, _, hGw⟩ | rfl
    · left
      refine ⟨w, rfl, ?_, hGw⟩
      simpa [F64.lt] using hlt
    · right; rfl
  · rcases hM with ⟨w, rfl, _, _⟩ | rfl
    · simp [F64.lt] at hlt
    · simp [F64.lt] at hlt

theorem opacity_zero_quotient :
    F64.mul (F64.sub (F64.fin 1) (F64.fin 0)) (F64.ofRat 0.2) = F64.ofRat 0.2 := by
  have h := (opacity_of_quotient (v := 0) le_rfl (by norm_num)).1
  rw [h, F64.ofRat_lit]
  have e : (1 : ℚ) + -0 = 1 := by norm_num
  rw [e, round64_one, one_mul, round64_c02]

theorem opacity64_of_lt {d M : F64} (hd : d.NonnegRounded) (hM : M.NonnegRounded)
    (hlt : F64.lt d M = true) :
    ∃ v : ℚ, opacity64 d M = F64.fin v ∧ c02 / 2 ^ 53 ≤ v ∧ v ≤ c02 := by
  obtain ⟨u, rfl, hu, hGu, ⟨w, rfl, huw, hGw⟩ | rfl⟩ := drawn_forms hd hM hlt
  · obtain ⟨e, q0, q1⟩ := div_of_lt hu hGu hGw huw
    obtain ⟨e2, lo, hi⟩ := opacity_of_quotient q0 q1
    refine ⟨_, ?_, lo, hi⟩
    simp only [opacity64, e, e2]
  · obtain ⟨e2, lo, hi⟩ := opacity_of_quotient (v := 0) le_rfl (by norm_num)
    refine ⟨_, ?_, lo, hi⟩
    simp only [opacity64, F64.div, e2]

theorem opacity64_anti {d d1 M : F64} (hd : d.NonnegRounded) (hd1 : d1.NonnegRounded)
    (hM : M.NonnegRounded) (hlt : F64.lt d M = true) (hlt1 : F64.lt d1 M = true)
    (hle : F64.le d d1 = true) :
    F64.le (opacity64 d1 M) (opacity64 d M) = true := by
  obtain ⟨u, rfl, hu, hGu, hM1⟩ := drawn_forms hd hM hlt
  obtain ⟨u1, rfl, hu1, hGu1, hM2⟩ := drawn_forms hd1 hM hlt1
  have huu : u ≤ u1 := by simpa [F64.le] using hle
  rcases hM1 with ⟨w, rfl, huw, hGw⟩ | rfl
  · have hu1w : u1 < w := by simpa [F64.lt] using hlt1
    have hw : 0 < w := lt_of_le_of_lt hu huw
    obtain ⟨e, q0, q1⟩ := div_of_lt hu hGu hGw huw
    obtain ⟨e1, r0, r1⟩ := div_of_lt hu1 hGu1 hGw hu1w
    have hq : round64 (u / w) ≤ round64 (u1 / w) :=
      round64_mono (div_nonneg hu hw.le) (div_le_div_of_nonneg_right huu hw.le)
    obtain ⟨a, _, _⟩ := opacity_of_quotient q0 q1
    obtain ⟨a1, _, _⟩ := opacity_of_quotient r0 r1
    simp only [opacity64, e, e1, a, a1, F64.le, decide_eq_true_eq]
    exact opacity_of_quotient_anti hq r1
  · obtain ⟨a, _, _⟩ := opacity_of_quotient (v := 0) le_rfl (by norm_num)
    simp only [opacity64, F64.div, a, F64.le, decide_eq_true_eq]
    exact le_rfl

theorem distanceSq64_self_pos (a b : Particle) (hx : a.x = b.x) (hy : a.y = b.y) :
    distanceSq64 a b = F64.fin 0 := by
  simp [distanceSq64, F64.sub, F64.neg, F64.add, hx, hy, F64.ofRat_zero, F64.mul]

theorem opacity64_zero {M : F64} (hM : M.NonnegRounded) (hlt : F64.lt (F64.fin 0) M = true) :
    opacity64 (F64.fin 0) M = F64.ofRat 0.2 := by
  rcases hM with ⟨w, rfl, _, _⟩ | rfl
  · have hw : 0 < w := by simpa [F64.lt] using hlt
    simp only [opacity64, F64.div, if_neg hw.ne.symm, zero_div, F64.ofRat_zero]
    exact opacity_zero_quotient
  · simp only [opacity64, F64.div]
    exact opacity_zero_quotient

theorem mem_forPairs_body {α β : Type} (ps : List α) (f : α → α → Option β)
    (body : Nat → Nat → List β)
    (hsome : ∀ (i j : Nat) (a b : α), ps[i]? = some a → ps[j]? = some b →
      body i j = (f a b).toList)
    (hnone : ∀ i j : Nat, ps[i]? = none ∨ ps[j]? = none → body i j = []) (op : β) :
    op ∈ forPairs ps.length body
      ↔ ∃ (i j : Nat) (a b : α), i < j ∧ ps[i]? = some a ∧ ps[j]? = some b
          ∧ f a b = some op := by
  rw [forPairs_eq_flatMap, List.mem_flatMap]
  constructor
  · rintro ⟨⟨i, j⟩, hmem, hop⟩
    rw [mem_examinedPairs] at hmem
    cases hi : ps[i]? with
    | none =>
      rw [hnone i j (Or.inl hi)] at hop
      cases hop
    | some a =>
      cases hj : ps[j]? with
      | none =>
        rw [hnone i j (Or.inr hj)] at hop
        cases hop
      | some b =>
        rw [hsome i j a b hi hj] at hop
        simp only [Option.mem_toList, Option.mem_def] at hop
        exact ⟨i, j, a, b, hmem.1, hi, hj, hop⟩
  · rintro ⟨i, j, a, b, hij, hi, hj, hop⟩
    refine ⟨(i, j), ?_, ?_⟩
    · rw [mem_examinedPairs]
      refine ⟨hij, ?_⟩
      by_contra hge
      rw [List.getElem?_eq_none (by omega)] at hj
      cases hj
    · show op ∈ body i j
      rw [hsome i j a b hi hj]
      simp only [Option.mem_toList, Option.mem_def]
      exact hop

theorem mem_drawConnections64 (cfg : Config) (ps : List Particle) (s : Stroke64) :
    s ∈ drawConnections64 cfg ps ↔
      ∃ (i j : Nat) (a b : Particle), i < j ∧ ps[i]? = some a ∧ ps[j]? = some b
        ∧ connection64 cfg a b = some s := by
  unfold drawConnections64
  apply mem_forPairs_body ps (connection64 cfg) (connectionAt64 cfg ps)
  · intro i j a b hi hj
    simp only [connectionAt64, hi, hj]
  · intro i j h
    rcases h with h | h
    · simp only [connectionAt64, h]
    · unfold connectionAt64
      rw [h]
      cases ps[i]? <;> rfl

theorem distanceSq64_eq (a b : Particle) : distanceSq64 a b =
    F64.add (F64.mul (F64.ofRat (a.x + -b.x)) (F64.ofRat (a.x + -b.x)))
      (F64.mul (F64.ofRat (a.y + -b.y)) (F64.ofRat (a.y + -b.y))) := rfl

theorem connection64_eq (cfg : Config) (a b : Particle) :
    connection64 cfg a b =
      if F64.lt (distanceSq64 a b) (maxDistanceSq64 cfg) then
        some ⟨a.x, a.y, b.x, b.y,
          F64.mul (F64.sub (F64.fin 1)
            (F64.div (distanceSq64 a b) (maxDistanceSq64 cfg))) (F64.ofRat 0.2)⟩
      else none := rfl

theorem drawConnections64_pair (cfg : Config) (a b : Particle) :
    drawConnections64 cfg [a, b] = (connection64 cfg a b).toList := by
  simp [drawConnections64, forPairs, forRange, connectionAt64]

/-- C3 (as the code computes it, in binary64). With `d2` the computed squared
distance of a pair and `D * D` the computed square of the connection distance:
`drawConnections` strokes a line for a pair of the collection exactly when
`d2 < D * D` (nothing when the two are equal), with the opacity
`(1 - d2 / (D * D)) * 0.2` computed in binary64; every drawn opacity is a finite
value in `(0, 0.2]` (`0.2` the binary64 literal); it is `0.2` whenever the two
positions coincide; and it does not increase as `d2` grows. -/
theorem connection64_threshold_opacity (cfg : Config) :
    (∀ (ps : List Particle) (s : Stroke64), s ∈ drawConnections64 cfg ps ↔
        ∃ (i j : Nat) (a b : Particle), i < j ∧ ps[i]? = some a ∧ ps[j]? = some b
          ∧ F64.lt (distanceSq64 a b) (maxDistanceSq64 cfg) = true
          ∧ s = ⟨a.x, a.y, b.x, b.y,
              F64.mul (F64.sub (F64.fin 1)
                (F64.div (distanceSq64 a b) (maxDistanceSq64 cfg))) (F64.ofRat 0.2)⟩)
      ∧ (∀ a b : Particle, drawConnections64 cfg [a, b] =
          if F64.lt (distanceSq64 a b) (maxDistanceSq64 cfg) then
            [⟨a.x, a.y, b.x, b.y,
              F64.mul (F64.sub (F64.fin 1)
                (F64.div (distanceSq64 a b) (maxDistanceSq64 cfg))) (F64.ofRat 0.2)⟩]
          else [])
      ∧ (∀ a b : Particle, distanceSq64 a b = maxDistanceSq64 cfg →
          drawConnections64 cfg [a, b] = [])
      ∧ (∀ a b : Particle, F64.lt (distanceSq64 a b) (maxDistanceSq64 cfg) = true →
          ∃ v : ℚ, opacity64 (distanceSq64 a b) (maxDistanceSq64 cfg) = F64.fin v
            ∧ 0 < v ∧ F64.le (F64.fin v) (F64.ofRat 0.2) = true)
      ∧ (∀ a b : Particle, a.x = b.x → a.y = b.y →
          F64.lt (distanceSq64 a b) (maxDistanceSq64 cfg) = true →
            opacity64 (distanceSq64 a b) (maxDistanceSq64 cfg) = F64.ofRat 0.2)
      ∧ (∀ a b c d : Particle,
          F64.lt (distanceSq64 a b) (maxDistanceSq64 cfg) = true →
          F64.lt (distanceSq64 c d) (maxDistanceSq64 cfg) = true →
          F64.le (distanceSq64 a b) (distanceSq64 c d) = true →
            F64.le (opacity64 (distanceSq64 c d) (maxDistanceSq64 cfg))
              (opacity64 (distanceSq64 a b) (maxDistanceSq64 cfg)) = true) := by
  have conn := connection64_eq cfg
  refine ⟨?_, ?_, ?_, ?_, ?_, ?_⟩
  · intro ps s
    have h : s ∈ drawConnections64 cfg ps ↔
        ∃ (i j : Nat) (a b : Particle), i < j ∧ ps[i]? = some a ∧ ps[j]? = some b
          ∧ connection64 cfg a b = some s :=
      mem_drawConnections64 cfg ps s
    constructor
    · intro hs
      obtain ⟨i, j, a, b, hij, hi, hj, hop⟩ := h.mp hs
      refine ⟨i, j, a, b, hij, hi, hj, ?_⟩
      rw [conn] at hop
      split_ifs at hop with hlt
      exact ⟨hlt, (Option.some.inj hop).symm⟩
    · rintro ⟨i, j, a, b, hij, hi, hj, hlt, hop⟩
      apply h.mpr
      refine ⟨i, j, a, b, hij, hi, hj, ?_⟩
      rw [conn, if_pos hlt, hop]
  · intro a b
    rw [drawConnections64_pair, conn]
    split_ifs <;> rfl
  · intro a b h
    rw [drawConnections64_pair, conn, h, F64.lt_irrefl]
    rfl
  · intro a b hlt
    obtain ⟨v, hv, lo, hi⟩ := opacity64_of_lt (distanceSq64_nonnegRounded a b)
      (maxDistanceSq64_nonnegRounded cfg) hlt
    have hpos : 0 < v := lt_of_lt_of_le (by norm_num [c02]) lo
    refine ⟨v, hv, hpos, ?_⟩
    rw [F64.ofRat_lit]
    simpa [F64.le] using hi
  · intro a b hx hy hlt
    rw [distanceSq64_self_pos a b hx hy] at hlt ⊢
    exact opacity64_zero (maxDistanceSq64_nonnegRounded cfg) hlt
  · intro a b c d h1 h2 hle
    exact opacity64_anti (distanceSq64_nonnegRounded a b) (distanceSq64_nonnegRounded c d)
      (maxDistanceSq64_nonnegRounded cfg) h1 h2 hle

theorem maxDistanceSq64_desktop : maxDistanceSq64 (config 1200) = F64.fin 22500 := by
  have hD : (config 1200).connectionDistance = 150 := by
    simp [config, isMobile]; norm_num
  simp only [maxDistanceSq64, hD, F64.mul]
  rw [F64.ofRat_eval (x := 150 * 150) 14 6184752906240000 (by norm_num) (by norm_num)
    (by norm_num) (by norm_num) (by norm_num)]
  norm_num

/-- Two particles at the same place under the desktop configuration (connection
distance 150): the pair is drawn, with the opacity `0.2`. -/
theorem connection64_threshold_opacity_witness :
    (⟨10, 20, 1, 0, 2⟩ : Particle).x = (⟨10, 20, 0, 1, 2⟩ : Particle).x
      ∧ (⟨10, 20, 1, 0, 2⟩ : Particle).y = (⟨10, 20, 0, 1, 2⟩ : Particle).y
      ∧ F64.lt (distanceSq64 ⟨10, 20, 1, 0, 2⟩ ⟨10, 20, 0, 1, 2⟩)
          (maxDistanceSq64 (config 1200)) = true
      ∧ opacity64 (distanceSq64 ⟨10, 20, 1, 0, 2⟩ ⟨10, 20, 0, 1, 2⟩)
          (maxDistanceSq64 (config 1200)) = F64.ofRat 0.2 := by
  have hlt : F64.lt (distanceSq64 ⟨10, 20, 1, 0, 2⟩ ⟨10, 20, 0, 1, 2⟩)
      (maxDistanceSq64 (config 1200)) = true := by
    rw [distanceSq64_self_pos ⟨10, 20, 1, 0, 2⟩ ⟨10, 20, 0, 1, 2⟩ rfl rfl,
      maxDistanceSq64_desktop]
    simp [F64.lt]
  exact ⟨rfl, rfl, hlt,
    (connection64_threshold_opacity (config 1200)).2.2.2.2.1 ⟨10, 20, 1, 0, 2⟩ ⟨10, 20, 0, 1, 2⟩
      rfl rfl hlt⟩

theorem distanceSq64_near :
    distanceSq64 ⟨1 / 2 ^ 20, 0, 0, 0, 2.5⟩ ⟨0, 0, 0, 0, 2.5⟩ = F64.fin (1 / 2 ^ 40) := by
  have e1 : F64.ofRat ((1 : ℚ) / 2 ^ 20) = F64.fin (1 / 2 ^ 20) := by
    rw [F64.ofRat_eval (x := 1 / 2 ^ 20) (-20) (2 ^ 52) (by norm_num) (by norm_num)
      (by norm_num) (by norm_num) (by norm_num)]
    norm_num
  have e2 : F64.ofRat ((1 : ℚ) / 2 ^ 40) = F64.fin (1 / 2 ^ 40) := by
    rw [F64.ofRat_eval (x := 1 / 2 ^ 40) (-40) (2 ^ 52) (by norm_num) (by norm_num)
      (by norm_num) (by norm_num) (by norm_num)]
    norm_num
  have a1 : ((1 : ℚ) / 2 ^ 20 + -0) = 1 / 2 ^ 20 := by norm_num
  have a2 : ((1 : ℚ) / 2 ^ 20 * (1 / 2 ^ 20)) = 1 / 2 ^ 40 := by norm_num
  have a3 : ((0 : ℚ) + -0) = 0 := by norm_num
  have a4 : ((1 : ℚ) / 2 ^ 40 + 0) = 1 / 2 ^ 40 := by norm_num
  have h : distanceSq64 ⟨1 / 2 ^ 20, 0, 0, 0, 2.5⟩ ⟨0, 0, 0, 0, 2.5⟩ =
      F64.add (F64.mul (F64.ofRat (1 / 2 ^ 20 + -0)) (F64.ofRat (1 / 2 ^ 20 + -0)))
        (F64.mul (F64.ofRat (0 + -0)) (F64.ofRat (0 + -0))) := by
    rw [distanceSq64_eq]
  rw [h, a1, e1, a3, F64.ofRat_zero]
  simp only [F64.mul]
  rw [a2, e2, mul_zero, F64.ofRat_zero]
  simp only [F64.add]
  rw [a4, e2]

/-- C3 (counterexample to the claim as stated). Under the desktop configuration
(connection distance 150) the particles at `(2 ^ -20, 0)` and `(0, 0)` do not
coincide and their squared distance `2 ^ -40` is above that of a coincident pair,
yet the opacity the code computes for them is exactly the `0.2` of a coincident
pair: `2 ^ -40 / 22500` rounds to a value below `2 ^ -54`, so `1 -` it rounds
to `1`. -/
theorem opacity64_max_at_distinct_positions :
    connection64 (config 1200) ⟨1 / 2 ^ 20, 0, 0, 0, 2.5⟩ ⟨0, 0, 0, 0, 2.5⟩
        = some ⟨1 / 2 ^ 20, 0, 0, 0, F64.ofRat 0.2⟩
      ∧ connection64 (config 1200) ⟨0, 0, 0, 0, 2.5⟩ ⟨0, 0, 0, 0, 2.5⟩
        = some ⟨0, 0, 0, 0, F64.ofRat 0.2⟩
      ∧ F64.lt (distanceSq64 ⟨0, 0, 0, 0, 2.5⟩ ⟨0, 0, 0, 0, 2.5⟩)
          (distanceSq64 ⟨1 / 2 ^ 20, 0, 0, 0, 2.5⟩ ⟨0, 0, 0, 0, 2.5⟩) = true
      ∧ ¬ ((⟨1 / 2 ^ 20, 0, 0, 0, 2.5⟩ : Particle).x = (⟨0, 0, 0, 0, 2.5⟩ : Particle).x
            ∧ (⟨1 / 2 ^ 20, 0, 0, 0, 2.5⟩ : Particle).y = (⟨0, 0, 0, 0, 2.5⟩ : Particle).y)
      ∧ ¬ (opacity64 (distanceSq64 ⟨1 / 2 ^ 20, 0, 0, 0, 2.5⟩ ⟨0, 0, 0, 0, 2.5⟩)
              (maxDistanceSq64 (config 1200)) = F64.ofRat 0.2
            ↔ ((⟨1 / 2 ^ 20, 0, 0, 0, 2.5⟩ : Particle).x = (⟨0, 0, 0, 0, 2.5⟩ : Particle).x
              ∧ (⟨1 / 2 ^ 20, 0, 0, 0, 2.5⟩ : Particle).y
                  = (⟨0, 0, 0, 0, 2.5⟩ : Particle).y)) := by
  have hq : F64.ofRat ((1 : ℚ) / 2 ^ 40 / 22500)
      = F64.fin (6558842337318952 / 2 ^ 107) := by
    rw [F64.ofRat_eval (x := 1 / 2 ^ 40 / 22500) (-55) 6558842337318952 (by norm_num)
      (by norm_num) (by norm_num) (by norm_num [abs_lt]) (by norm_num)]
    norm_num
  have hone : F64.ofRat ((1 : ℚ) + -(6558842337318952 / 2 ^ 107)) = F64.fin 1 := by
    rw [F64.ofRat_eval (x := 1 + -(6558842337318952 / 2 ^ 107)) (-1) (2 ^ 53) (by norm_num)
      (by norm_num) (by norm_num) (by norm_num [abs_lt]) (by norm_num)]
    norm_num
  have hc : F64.ofRat ((1 : ℚ) * c02) = F64.fin c02 := by
    rw [one_mul, (F64.ofRat_of_le_one (x := c02) (by norm_num [c02]) (by norm_num [c02])).1,
      round64_c02]
  have hop : opacity64 (F64.fin (1 / 2 ^ 40)) (F64.fin 22500) = F64.ofRat 0.2 := by
    have hne : ¬ ((22500 : ℚ) = 0) := by norm_num
    simp only [opacity64, F64.div, if_neg hne]
    rw [hq]
    simp only [F64.sub, F64.neg, F64.add]
    rw [hone, F64.ofRat_lit]
    simp only [F64.mul]
    rw [hc]
  have hlt : F64.lt (F64.fin (1 / 2 ^ 40)) (F64.fin 22500) = true := by
    simp only [F64.lt, decide_eq_true_eq]; norm_num
  have h0 : F64.lt (F64.fin 0) (F64.fin 22500) = true := by
    simp only [F64.lt, decide_eq_true_eq]; norm_num
  have hd0 : distanceSq64 ⟨0, 0, 0, 0, 2.5⟩ ⟨0, 0, 0, 0, 2.5⟩ = F64.fin 0 :=
    distanceSq64_self_pos ⟨0, 0, 0, 0, 2.5⟩ ⟨0, 0, 0, 0, 2.5⟩ rfl rfl
  have hop0 : opacity64 (F64.fin 0) (F64.fin 22500) = F64.ofRat 0.2 := by
    have hM := maxDistanceSq64_nonnegRounded (config 1200)
    rw [maxDistanceSq64_desktop] at hM
    exact opacity64_zero hM h0
  have hne : ¬ ((⟨1 / 2 ^ 20, 0, 0, 0, 2.5⟩ : Particle).x = (⟨0, 0, 0, 0, 2.5⟩ : Particle).x
      ∧ (⟨1 / 2 ^ 20, 0, 0, 0, 2.5⟩ : Particle).y = (⟨0, 0, 0, 0, 2.5⟩ : Particle).y) := by
    intro h
    have h1 : ((1 : ℚ) / 2 ^ 20) = 0 := h.1
    norm_num at h1
  refine ⟨?_, ?_, ?_, hne, ?_⟩
  · rw [connection64_eq, distanceSq64_near, maxDistanceSq64_desktop, if_pos hlt]
    have := hop
    unfold opacity64 at this
    rw [this]
  · rw [connection64_eq, hd0, maxDistanceSq64_desktop, if_pos h0]
    have := hop0
    unfold opacity64 at this
    rw [this]
  · rw [hd0, distanceSq64_near]
    simp only [F64.lt, decide_eq_true_eq]; norm_num
  · rw [distanceSq64_near, maxDistanceSq64_desktop]
    intro h
    exact hne (h.mp hop)

theorem roundHalfEven_tie_odd (f : ℤ) (h : f % 2 = 1) :
    roundHalfEven ((f : ℚ) + 1 / 2) = f + 1 := by
  have hf : ⌊(f : ℚ) + 1 / 2⌋ = f := by
    rw [Int.floor_eq_iff]; constructor <;> linarith
  unfold roundHalfEven
  simp only [hf]
  rw [if_neg (by linarith), if_neg (by linarith), if_neg (by omega)]

/-- The model at the pair `(75, 0)`, `(0, 0)` under connection distance 150: the
quotient `5625 / 22500` and `1 - 0.25` are exact, and `0.75 * 0.2` falls half-way
between two binary64 values and rounds to the even one, which is the value
JavaScript prints as `0.15000000000000002`. -/
theorem connection64_at_75 :
    connection64 (config 1200) ⟨75, 0, 0, 0, 2.5⟩ ⟨0, 0, 0, 0, 2.5⟩
      = some ⟨75, 0, 0, 0, F64.fin (5404319552844596 / 2 ^ 55)⟩ := by
  have e75 : F64.ofRat (75 : ℚ) = F64.fin 75 := by
    rw [F64.ofRat_eval (x := 75) 6 (75 * 2 ^ 46) (by norm_num) (by norm_num)
      (by norm_num) (by norm_num) (by norm_num)]
    norm_num
  have e5625 : F64.ofRat (5625 : ℚ) = F64.fin 5625 := by
    rw [F64.ofRat_eval (x := 5625) 12 (5625 * 2 ^ 40) (by norm_num) (by norm_num)
      (by norm_num) (by norm_num) (by norm_num)]
    norm_num
  have equarter : F64.ofRat ((5625 : ℚ) / 22500) = F64.fin (1 / 4) := by
    rw [F64.ofRat_eval (x := 5625 / 22500) (-2) (2 ^ 52) (by norm_num) (by norm_num)
      (by norm_num) (by norm_num) (by norm_num)]
    norm_num
  have e34 : F64.ofRat ((1 : ℚ) + -(1 / 4)) = F64.fin (3 / 4) := by
    rw [F64.ofRat_eval (x := 1 + -(1 / 4)) (-1) (3 * 2 ^ 51) (by norm_num) (by norm_num)
      (by norm_num) (by norm_num) (by norm_num)]
    norm_num
  have etie : F64.ofRat ((3 : ℚ) / 4 * c02) = F64.fin (5404319552844596 / 2 ^ 55) := by
    have hx : (0 : ℚ) ≤ 3 / 4 * c02 := by norm_num [c02]
    have hq := quantum_of_bounds (x := 3 / 4 * c02) (-3) hx (by norm_num [c02])
      (by norm_num [c02])
    have hm : (3 : ℚ) / 4 * c02 / (2 : ℚ) ^ (max (-3 - 52) (-1074) : ℤ)
        = ((5404319552844595 : ℤ) : ℚ) + 1 / 2 := by
      norm_num [c02]
    have hr : round64 (3 / 4 * c02) = 5404319552844596 / 2 ^ 55 := by
      rw [round64_of_nonneg hx, hq]
      unfold roundAt
      rw [hm, roundHalfEven_tie_odd _ (by norm_num)]
      norm_num
    unfold F64.ofRat
    rw [hr, if_neg (by norm_num [abs_of_nonneg])]
  have d : distanceSq64 ⟨75, 0, 0, 0, 2.5⟩ ⟨0, 0, 0, 0, 2.5⟩ = F64.fin 5625 := by
    have h : distanceSq64 ⟨75, 0, 0, 0, 2.5⟩ ⟨0, 0, 0, 0, 2.5⟩ =
        F64.add (F64.mul (F64.ofRat (75 + -0)) (F64.ofRat (75 + -0)))
          (F64.mul (F64.ofRat (0 + -0)) (F64.ofRat (0 + -0))) := by
      rw [distanceSq64_eq]
    have a1 : ((75 : ℚ) + -0) = 75 := by norm_num
    have a2 : ((75 : ℚ) * 75) = 5625 := by norm_num
    have a3 : ((0 : ℚ) + -0) = 0 := by norm_num
    have a4 : ((5625 : ℚ) + 0) = 5625 := by norm_num
    rw [h, a1, e75, a3, F64.ofRat_zero]
    simp only [F64.mul]
    rw [a2, e5625, mul_zero, F64.ofRat_zero]
    simp only [F64.add]
    rw [a4, e5625]
  have hlt : F64.lt (F64.fin 5625) (F64.fin 22500) = true := by
    simp only [F64.lt, decide_eq_true_eq]; norm_num
  have hne : ¬ ((22500 : ℚ) = 0) := by norm_num
  rw [connection64_eq, d, maxDistanceSq64_desktop, if_pos hlt]
  simp only [F64.div, if_neg hne]
  rw [equarter]
  simp only [F64.sub, F64.neg, F64.add]
  rw [e34, F64.ofRat_lit]
  simp only [F64.mul]
  rw [etie]

end Particles
